import Mathlib

/-!
Verification of the Apriori frequent-itemset miner in
src/efficient_apriori/itemsets.py.

Itemsets are embedded as `List α` (Python tuples), transactions as
`List (List α)`, dictionaries as insertion-ordered association lists, and
`min_support` as a rational number.  Python `set(t)` is embedded as
`List.dedup t`: the observable results of the algorithm do not depend on
the iteration order of a Python set, because every per-item count is
order independent and every level is sorted before it is installed.
All recursion is fuel-structural so that concrete runs reduce in the kernel.
-/

set_option linter.unusedSectionVars false

namespace Apriori

variable {α : Type} [LinearOrder α] [Inhabited α] [DecidableEq α]

/-- Python list/tuple lexicographic strict comparison, as used by
`sorted` on tuples: `[] < x :: xs`, and `x :: xs < y :: ys` iff `x < y`
or (`x = y` and `xs < ys`). -/
def listLt : List α → List α → Bool
  | [], [] => false
  | [], _ :: _ => true
  | _ :: _, [] => false
  | a :: as, b :: bs => if a < b then true else if a = b then listLt as bs else false

/-- Comparison used by `sorted(itertools.combinations(...))` in `join_step`:
lexicographic order on pairs of items. -/
def pairLeA (p q : α × α) : Bool :=
  decide (p.1 < q.1) || (decide (p.1 = q.1) && decide (p.2 ≤ q.2))

/-- Comparison used by `sorted(large_itemsets)` in STEP 1 of
`itemsets_from_transactions`: lexicographic order on (item, count) pairs. -/
def itemPairLe (p q : α × ℕ) : Bool :=
  decide (p.1 < q.1) || (decide (p.1 = q.1) && decide (p.2 ≤ q.2))

/-- Comparison used by `sorted(C_k)` in STEP 2 of
`itemsets_from_transactions`: lexicographic order on (itemset, count) pairs. -/
def levelLe (p q : List α × ℕ) : Bool :=
  listLt p.1 q.1 || (decide (p.1 = q.1) && decide (p.2 ≤ q.2))

instance decRelPairLeA : DecidableRel (fun p q : α × α => pairLeA p q = true) :=
  fun _ _ => inferInstance

instance decRelItemPairLe : DecidableRel (fun p q : α × ℕ => itemPairLe p q = true) :=
  fun _ _ => inferInstance

instance decRelLevelLe : DecidableRel (fun p q : List α × ℕ => levelLe p q = true) :=
  fun _ _ => inferInstance

/-- The list produced by `itertools.combinations(l, 2)`: all pairs
`(l[i], l[j])` with `i < j`, in list order. -/
def combinations2 : List α → List (α × α)
  | [] => []
  | x :: xs => xs.map (fun y => (x, y)) ++ combinations2 xs

/-- One block of `join_step` starting at itemset `x`: the run of consecutive
itemsets whose first `k - 1` items equal those of `x` (the Python inner
for-loop that breaks at the first mismatch). -/
def joinBlock (x : List α) (xs : List (List α)) : List (List α) :=
  xs.takeWhile (fun y => decide (y.dropLast = x.dropLast))

/-- Candidates emitted for one block: `sorted(itertools.combinations(tail_items, 2))`
mapped to `itemset_first + (a,) + (b,)`. -/
def blockCands (x : List α) (xs : List (List α)) : List (List α) :=
  let tail_items := x.getLastD default :: (joinBlock x xs).map (fun y => y.getLastD default)
  (List.insertionSort (fun p q : α × α => pairLeA p q = true) (combinations2 tail_items)).map
    (fun ab => x.dropLast ++ [ab.1, ab.2])

/-- Fuel-indexed body of `join_step`.  The Python while-loop advances `i` by
`skip`, the size of the current block; here the block is split off with
`takeWhile`/`dropWhile` and the fuel (bounded by the list length) makes the
recursion structural. -/
def joinAux : ℕ → List (List α) → List (List α)
  | 0, _ => []
  | _, [] => []
  | fuel + 1, x :: xs =>
      blockCands x xs ++
        joinAux fuel (xs.dropWhile (fun y => decide (y.dropLast = x.dropLast)))

/-- Embedding of `join_step` (itemsets.py lines 13-78): join `k` length
itemsets into `k + 1` length candidate itemsets, block by block. -/
def join_step (itemsets : List (List α)) : List (List α) :=
  joinAux itemsets.length itemsets

/-- The length-`k` subset `possible_itemset[:i] + possible_itemset[i+1:]`
formed in `prune_step` by removing the item at position `i`. -/
def removedAt (l : List α) (i : ℕ) : List α :=
  l.take i ++ l.drop (i + 1)

/-- Embedding of `prune_step` (itemsets.py lines 81-127): keep the possible
itemsets all of whose subsets obtained by removing one of the items at
positions `0 .. len - 3` are members of `itemsets`.  (Membership in the
Python set `set(itemsets)` is membership in the list.) -/
def prune_step (itemsets : List (List α)) (possible_itemsets : List (List α)) :
    List (List α) :=
  possible_itemsets.filter (fun p =>
    (List.range (p.length - 2)).all (fun i => decide (removedAt p i ∈ itemsets)))

/-- Embedding of `apriori_gen` (itemsets.py lines 130-152). -/
def apriori_gen (itemsets : List (List α)) : List (List α) :=
  prune_step itemsets (join_step itemsets)

/-- Shape of the value returned by a zero-argument callable passed as
`transactions`: a generator, some other iterable, or a non-iterable value.
The code accepts the callable only in the first case
(`isinstance(ret_value, collections.Generator)`, line 199). -/
inductive RetKind : Type
  | generator : RetKind
  | iterableNonGen : RetKind
  | notIterable : RetKind
deriving DecidableEq

/-- The duck-typed `transactions` argument of `itemsets_from_transactions`:
an iterable collection of transactions, a zero-argument callable (tagged by
what its invocation returns; the payload is the sequence a generator would
yield), or a value that is neither iterable nor callable. -/
inductive TransactionsInput (α : Type) : Type
  | iterable (ts : List (List α)) : TransactionsInput α
  | callable (kind : RetKind) (ts : List (List α)) : TransactionsInput α
  | notIterableNotCallable : TransactionsInput α

/-- The duck-typed `min_support` argument: a number (embedded as a rational)
or a non-numeric value. -/
inductive SupportInput : Type
  | num (s : ℚ) : SupportInput
  | notNum : SupportInput

/-- Exceptions raised by STEP 0 of `itemsets_from_transactions`: `TypeError`
for a bad `transactions` shape (lines 202, 206), `ValueError` for a bad
`min_support` (line 213). -/
inductive AprioriError : Type
  | typeError : AprioriError
  | valueError : AprioriError
deriving DecidableEq

/-- STEP 0, transactions part (lines 189-206): an iterable is converted to
the list of deduplicated sets of its non-empty transactions, a callable is
accepted unchanged if it returns a generator, and anything else raises
`TypeError`. -/
def normalizeTransactions : TransactionsInput α → Except AprioriError (List (List α))
  | .iterable ts => .ok ((ts.filter (fun t => decide (0 < t.length))).map List.dedup)
  | .callable .generator ts => .ok ts
  | .callable .iterableNonGen _ => .error .typeError
  | .callable .notIterable _ => .error .typeError
  | .notIterableNotCallable => .error .typeError

/-- STEP 0, `min_support` part (lines 210-213): a number in `[0, 1]` is
accepted, anything else raises `ValueError`. -/
def checkSupport : SupportInput → Except AprioriError ℚ
  | .num s => if 0 ≤ s ∧ s ≤ 1 then .ok s else .error .valueError
  | .notNum => .error .valueError

/-- The support test `(c / num_transactions) >= min_support` (lines 229, 280),
with the real-valued division embedded as exact rational division. -/
def supOK (min_support : ℚ) (num_transactions c : ℕ) : Bool :=
  decide (min_support ≤ (c : ℚ) / (num_transactions : ℚ))

/-- STEP 1 per-item counters (lines 221-226): `counts` maps each item, in
first-occurrence order, to its total number of occurrences across all
transactions. -/
def itemCounts (ts : List (List α)) : List (α × ℕ) :=
  ts.flatten.dedup.map (fun a => (a, ts.flatten.count a))

/-- STEP 1 (lines 221-233): the filtered `(item, count)` pairs, sorted, as
level 1 keyed by singleton itemsets. -/
def large_one (ts : List (List α)) (sup : ℕ → Bool) : List (List α × ℕ) :=
  let large := (itemCounts ts).filter (fun ic => sup ic.2)
  (List.insertionSort (fun p q : α × ℕ => itemPairLe p q = true) large).map
    (fun ic => ([ic.1], ic.2))

/-- The subset test `set.issubset(candidate_set, transaction)` (line 269). -/
def isSub (c t : List α) : Bool :=
  c.all (fun a => decide (a ∈ t))

/-- Does the transaction of a row contain any of the candidates
(the `found_any` flag of lines 264-271)? -/
def rowMatch (cands : List (List α)) (t : List α) : Bool :=
  cands.any (fun c => isSub c t)

/-- Number of rows that are still active under the row-usage mask
`use_transaction` and whose transaction contains the candidate: each such
row increments the candidate's counter once (lines 257-270). -/
def activeRows (ts : List (List α)) (mask : ℕ → Bool) (c : List α) : ℕ :=
  (ts.enum.filter (fun rt => mask rt.1 && isSub c rt.2)).length

/-- The content of `candidate_itemset_counts` after the row scan: every
distinct candidate with a positive counter, paired with its counter.  A
candidate occurring `m` times in `C_k` is zipped `m` times against
`C_k_sets`, so each matching row increments it `m` times. -/
def candCounts (ts : List (List α)) (mask : ℕ → Bool) (Ck : List (List α)) :
    List (List α × ℕ) :=
  Ck.dedup.filterMap (fun c =>
    if Ck.count c * activeRows ts mask c = 0 then none
    else some (c, Ck.count c * activeRows ts mask c))

/-- The row-usage mask after one level scan (lines 260-276): a row stays
active iff it was active and its transaction contained at least one
candidate of this level; rows beyond the transaction list are untouched. -/
def updateMask (ts : List (List α)) (Ck : List (List α)) (mask : ℕ → Bool) :
    ℕ → Bool :=
  fun r =>
    match ts.get? r with
    | some t => mask r && rowMatch Ck t
    | none => mask r

/-- Installation order of a level: `sorted(C_k)` (line 288). -/
def sortLevel (l : List (List α × ℕ)) : List (List α × ℕ) :=
  List.insertionSort (fun p q : List α × ℕ => levelLe p q = true) l

/-- STEP 2 (lines 243-289): the level-wise while-loop, fuel-indexed.  Each
iteration joins and prunes the previous level's keys, counts the surviving
candidates over the active rows, keeps those meeting the support threshold,
and either stops or installs the sorted level and recurses with the updated
row-usage mask. -/
def apriori_loop (ts : List (List α)) (sup : ℕ → Bool) :
    ℕ → List (List α × ℕ) → (ℕ → Bool) → List (List (List α × ℕ))
  | 0, _, _ => []
  | fuel + 1, prev, mask =>
      if prev.isEmpty then []
      else
        let itemsets_list := prev.map Prod.fst
        let Ck := prune_step itemsets_list (join_step itemsets_list)
        let counted := (candCounts ts mask Ck).filter (fun ic => sup ic.2)
        if counted.isEmpty then []
        else
          sortLevel counted ::
            apriori_loop ts sup fuel (sortLevel counted) (updateMask ts Ck mask)

/-- Number of distinct items across all transactions; strictly increasing
itemsets cannot be longer than this, which bounds the number of levels. -/
def numDistinctItems (ts : List (List α)) : ℕ :=
  ts.flatten.dedup.length

/-- STEP 1 and STEP 2 with an abstract support test and explicit fuel for
the while-loop: count items, return no levels if none is large, otherwise
grow levels from the sorted singleton level with an all-active row mask
(`use_transaction = defaultdict(lambda: True)`, line 217). -/
def mineWith (fuel : ℕ) (ts : List (List α)) (sup : ℕ → Bool) :
    List (List (List α × ℕ)) × ℕ :=
  let num_transactions := ts.length
  let lvl1 := large_one ts sup
  if lvl1.isEmpty then ([], num_transactions)
  else (lvl1 :: apriori_loop ts sup fuel lvl1 (fun _ => true), num_transactions)

/-- The mining core on normalized transactions, with the fuel of the
while-loop left explicit. -/
def mineCoreF (fuel : ℕ) (ts : List (List α)) (min_support : ℚ) :
    List (List (List α × ℕ)) × ℕ :=
  mineWith fuel ts (fun c => supOK min_support ts.length c)

/-- The mining core at the canonical fuel `numDistinctItems ts + 1`, which
is enough for the while-loop to reach its exit condition. -/
def mineCore (ts : List (List α)) (min_support : ℚ) :
    List (List (List α × ℕ)) × ℕ :=
  mineCoreF (numDistinctItems ts + 1) ts min_support

/-- Embedding of `itemsets_from_transactions` (itemsets.py lines 155-291)
with explicit fuel: validate the two inputs, then mine.  The returned list
holds level `k` (for `k = 1, 2, ...`) at position `k - 1`. -/
def itemsets_from_transactionsF (fuel : ℕ) (transactions : TransactionsInput α)
    (min_support : SupportInput) :
    Except AprioriError (List (List (List α × ℕ)) × ℕ) :=
  match normalizeTransactions transactions with
  | .error e => .error e
  | .ok ts =>
      match checkSupport min_support with
      | .error e => .error e
      | .ok s => .ok (mineCoreF fuel ts s)

/-- Embedding of `itemsets_from_transactions` (itemsets.py lines 155-291). -/
def itemsets_from_transactions (transactions : TransactionsInput α)
    (min_support : SupportInput) :
    Except AprioriError (List (List (List α × ℕ)) × ℕ) :=
  match normalizeTransactions transactions with
  | .error e => .error e
  | .ok ts =>
      match checkSupport min_support with
      | .error e => .error e
      | .ok s => .ok (mineCore ts s)

/-- Operational model of how many transactions STEP 0 reads from the input
before the validation of both arguments is complete: the iterable branch
reads every transaction while building `transaction_sets` (line 191) before
`min_support` is checked (line 210), while the callable branches only call
`transactions()` without iterating the result, and the failure branch at
line 206 reads nothing. -/
def transactionsReadDuringValidation :
    TransactionsInput α → SupportInput → ℕ
  | .iterable ts, _ => ts.length
  | .callable _ _, _ => 0
  | .notIterableNotCallable, _ => 0

/-- The `transactions` argument has one of the two shapes the code rejects
with a `TypeError`. -/
def transInvalid (input : TransactionsInput α) : Prop :=
  input = .notIterableNotCallable ∨
    ∃ kind ts, kind ≠ RetKind.generator ∧ input = .callable kind ts

/-- The `min_support` argument is a number in `[0, 1]`. -/
def supValid (sin : SupportInput) : Prop :=
  ∃ s, sin = .num s ∧ 0 ≤ s ∧ s ≤ 1

theorem itemsets_ok {input : TransactionsInput α} {sin : SupportInput}
    {ts : List (List α)} {s : ℚ}
    (h1 : normalizeTransactions input = .ok ts)
    (h2 : checkSupport sin = .ok s) :
    itemsets_from_transactions input sin = .ok (mineCore ts s) := by
  unfold itemsets_from_transactions
  rw [h1, h2]

theorem itemsets_F_ok {fuel : ℕ} {input : TransactionsInput α} {sin : SupportInput}
    {ts : List (List α)} {s : ℚ}
    (h1 : normalizeTransactions input = .ok ts)
    (h2 : checkSupport sin = .ok s) :
    itemsets_from_transactionsF fuel input sin = .ok (mineCoreF fuel ts s) := by
  unfold itemsets_from_transactionsF
  rw [h1, h2]

theorem checkSupport_num {s : ℚ} (h0 : 0 ≤ s) (h1 : s ≤ 1) :
    checkSupport (.num s) = .ok s := by
  show (if 0 ≤ s ∧ s ≤ 1 then Except.ok s else Except.error AprioriError.valueError) = Except.ok s
  rw [if_pos ⟨h0, h1⟩]

theorem mineCoreF_sup_congr (fuel : ℕ) (ts : List (List α)) (s : ℚ)
    (t : ℕ → Bool) (h : ∀ c, supOK s ts.length c = t c) :
    mineCoreF fuel ts s = mineWith fuel ts t := by
  unfold mineCoreF
  exact congrArg (mineWith fuel ts) (funext h)

theorem supOK_iff {s : ℚ} {N c : ℕ} (hN : 0 < N) :
    supOK s N c = true ↔ s * N ≤ (c : ℚ) := by
  unfold supOK
  rw [decide_eq_true_iff]
  exact le_div_iff₀ (by exact_mod_cast hN)

theorem supOK_two_fifths_four (c : ℕ) :
    supOK (2 / 5 : ℚ) 4 c = decide (8 ≤ 5 * c) := by
  by_cases h : 8 ≤ 5 * c
  · rw [decide_eq_true h]
    apply (supOK_iff (by norm_num)).mpr
    have h2 : (8 : ℚ) ≤ 5 * (c : ℚ) := by exact_mod_cast h
    push_cast
    linarith
  · rw [decide_eq_false h]
    rw [← Bool.not_eq_true]
    intro hc
    have h1 := (supOK_iff (by norm_num : (0 : ℕ) < 4)).mp hc
    apply h
    have h2 : (8 : ℚ) ≤ 5 * (c : ℚ) := by push_cast at h1 ⊢; linarith
    exact_mod_cast h2

theorem supOK_one_one (c : ℕ) : supOK (1 : ℚ) 1 c = decide (1 ≤ c) := by
  by_cases h : 1 ≤ c
  · rw [decide_eq_true h]
    apply (supOK_iff (by norm_num)).mpr
    have h2 : (1 : ℚ) ≤ (c : ℚ) := by exact_mod_cast h
    push_cast
    linarith
  · rw [decide_eq_false h]
    rw [← Bool.not_eq_true]
    intro hc
    have h1 := (supOK_iff (by norm_num : (0 : ℕ) < 1)).mp hc
    apply h
    have h2 : (1 : ℚ) ≤ (c : ℚ) := by push_cast at h1 ⊢; linarith
    exact_mod_cast h2

theorem mineWith_snd (fuel : ℕ) (ts : List (List α)) (sup : ℕ → Bool) :
    (mineWith fuel ts sup).2 = ts.length := by
  unfold mineWith
  by_cases h : (large_one ts sup).isEmpty
  · rw [if_pos h]
  · rw [if_neg h]

/-- The claimed end-to-end example.  `min_support = 0.4` is the exact
rational `2/5`; all compared frequencies are quarters, so the embedding by
exact rationals agrees with the float computation of the source. -/
theorem example_run :
    itemsets_from_transactions
        (.iterable [[1, 3, 4], [2, 3, 5], [1, 2, 3, 5], [2, 5]])
        (.num (2 / 5)) =
      .ok ([[([1], 2), ([2], 3), ([3], 3), ([5], 3)],
            [([1, 3], 2), ([2, 3], 2), ([2, 5], 3), ([3, 5], 2)],
            [([2, 3, 5], 2)]], 4) := by
  have h1 : normalizeTransactions
      (TransactionsInput.iterable (α := ℕ) [[1, 3, 4], [2, 3, 5], [1, 2, 3, 5], [2, 5]]) =
      .ok [[1, 3, 4], [2, 3, 5], [1, 2, 3, 5], [2, 5]] := rfl
  rw [itemsets_ok h1 (checkSupport_num (by norm_num) (by norm_num))]
  rw [show mineCore [[1, 3, 4], [2, 3, 5], [1, 2, 3, 5], [2, 5]] (2 / 5) =
      mineWith 6 [[1, 3, 4], [2, 3, 5], [1, 2, 3, 5], [2, 5]]
        (fun c => decide (8 ≤ 5 * c)) from
    mineCoreF_sup_congr 6 _ _ _ supOK_two_fifths_four]
  exact congrArg Except.ok (by decide)

/-- Deduplicating every transaction of an iterable input before mining does
not change the normalized transactions, hence not the result. -/
theorem normalize_dedup (ts : List (List α)) :
    normalizeTransactions (.iterable (ts.map List.dedup)) =
      normalizeTransactions (.iterable ts) := by
  have key : ((ts.map List.dedup).filter (fun t => decide (0 < t.length))).map List.dedup =
      (ts.filter (fun t => decide (0 < t.length))).map List.dedup := by
    rw [List.filter_map]
    rw [List.map_map]
    have hfil : ts.filter ((fun t => decide (0 < t.length)) ∘ List.dedup) =
        ts.filter (fun t => decide (0 < t.length)) := by
      apply List.filter_congr
      intro t _
      simp only [Function.comp_apply, decide_eq_decide, List.length_pos_iff_ne_nil]
      rw [ne_eq, ne_eq, List.dedup_eq_nil]
    rw [hfil]
    apply List.map_congr_left
    intro t _
    exact List.dedup_idem
  show Except.ok (((ts.map List.dedup).filter (fun t => decide (0 < t.length))).map List.dedup) =
    Except.ok ((ts.filter (fun t => decide (0 < t.length))).map List.dedup)
  exact congrArg Except.ok key

/-! ## Claims -/

/-- C1: on the transactions `[(1,3,4), (2,3,5), (1,2,3,5), (2,5)]` with
`min_support = 0.4` (the exact rational `2/5`), `itemsets_from_transactions`
returns exactly level 1 `(1,):2, (2,):3, (3,):3, (5,):3`, level 2
`(1,3):2, (2,3):2, (2,5):3, (3,5):2`, level 3 `(2,3,5):2`, no level 4
(the list of levels has length 3), and transaction count 4. -/
theorem claim_C1 :
    itemsets_from_transactions
        (.iterable [[1, 3, 4], [2, 3, 5], [1, 2, 3, 5], [2, 5]])
        (.num (2 / 5)) =
      .ok ([[([1], 2), ([2], 3), ([3], 3), ([5], 3)],
            [([1, 3], 2), ([2, 3], 2), ([2, 5], 3), ([3, 5], 2)],
            [([2, 3, 5], 2)]], 4) :=
  example_run

/-- C6 counterexample: for the callable shape the yielded transactions are
used without deduplication, so the duplicate item in the single transaction
`(1, 1)` is counted twice at level 1 (count 2 out of 1 transaction), while
the same data given as an iterable is deduplicated and counted once. -/
theorem claim_C6_counterexample :
    itemsets_from_transactions (.callable .generator [[1, 1]]) (.num 1) =
        .ok ([[([1], 2)]], 1) ∧
      itemsets_from_transactions (.iterable [[(1 : ℕ), 1]]) (.num 1) =
        .ok ([[([1], 1)]], 1) := by
  constructor
  · have h1 : normalizeTransactions
        (TransactionsInput.callable (α := ℕ) .generator [[1, 1]]) = .ok [[1, 1]] := rfl
    rw [itemsets_ok h1 (checkSupport_num (by norm_num) (by norm_num))]
    rw [show mineCore [[(1 : ℕ), 1]] 1 = mineWith 2 [[1, 1]] (fun c => decide (1 ≤ c)) from
      mineCoreF_sup_congr 2 _ _ _ supOK_one_one]
    exact congrArg Except.ok (by decide)
  · have h1 : normalizeTransactions
        (TransactionsInput.iterable (α := ℕ) [[1, 1]]) = .ok [[1]] := rfl
    rw [itemsets_ok h1 (checkSupport_num (by norm_num) (by norm_num))]
    rw [show mineCore [[(1 : ℕ)]] 1 = mineWith 2 [[1]] (fun c => decide (1 ≤ c)) from
      mineCoreF_sup_congr 2 _ _ _ supOK_one_one]
    exact congrArg Except.ok (by decide)

/-- C6 amended: for an iterable input, duplicate items within a transaction
never inflate any count, because normalization deduplicates each transaction:
mining is unchanged when every transaction is first replaced by the list of
its distinct items.  (For the callable shape the yielded transactions are
used as-is and duplicates do inflate the level-1 occurrence counters, see
the counterexample.) -/
theorem claim_C6 (ts : List (List α)) (sin : SupportInput) :
    itemsets_from_transactions (.iterable (ts.map List.dedup)) sin =
      itemsets_from_transactions (.iterable ts) sin := by
  unfold itemsets_from_transactions
  rw [normalize_dedup]

/-- C7 counterexample: with a perfectly valid iterable of one transaction
and an invalid `min_support`, the `ValueError` is raised only after the
normalization of line 191 has already read the transaction — the validation
error is not raised before any transaction is read, contrary to the claim. -/
theorem claim_C7_counterexample :
    itemsets_from_transactions (.iterable [[(1 : ℕ)]]) SupportInput.notNum =
        .error .valueError ∧
      transactionsReadDuringValidation (.iterable [[(1 : ℕ)]]) SupportInput.notNum = 1 :=
  ⟨rfl, rfl⟩

/-- C7 amended: invalid inputs (a `transactions` argument that is neither
iterable nor a callable returning a generator, or a `min_support` that is
not a number in `[0, 1]`) make `itemsets_from_transactions` raise an error
(`TypeError` or `ValueError`) and produce nothing but that error, and valid
inputs never raise; when the `transactions` argument itself is invalid the
error precedes any transaction read, but when `transactions` is a valid
iterable and only `min_support` is invalid, normalization reads all
transactions before the `ValueError` is raised. -/
theorem claim_C7 :
    (∀ (input : TransactionsInput α) (sin : SupportInput),
      (∃ e, itemsets_from_transactions input sin = .error e) ↔
        (transInvalid input ∨ ¬ supValid sin)) ∧
    (∀ (input : TransactionsInput α) (sin : SupportInput),
      transInvalid input → transactionsReadDuringValidation input sin = 0) ∧
    (∀ (ts : List (List α)) (sin : SupportInput),
      transactionsReadDuringValidation (.iterable ts) sin = ts.length) := by
  refine ⟨?_, ?_, ?_⟩
  · intro input sin
    constructor
    · rintro ⟨e, he⟩
      by_contra hcon
      push_neg at hcon
      obtain ⟨hti, hsv⟩ := hcon
      obtain ⟨s, rfl, h0, h1⟩ := hsv
      have hok : ∃ ts, normalizeTransactions input = .ok ts := by
        cases input with
        | iterable ts => exact ⟨_, rfl⟩
        | callable kind ts =>
            cases kind with
            | generator => exact ⟨_, rfl⟩
            | iterableNonGen =>
                exact absurd (Or.inr ⟨_, _, by decide, rfl⟩) hti
            | notIterable =>
                exact absurd (Or.inr ⟨_, _, by decide, rfl⟩) hti
        | notIterableNotCallable => exact absurd (Or.inl rfl) hti
      obtain ⟨ts, hts⟩ := hok
      rw [itemsets_ok hts (checkSupport_num h0 h1)] at he
      exact Except.noConfusion he
    · intro h
      rcases h with hti | hsv
      · rcases hti with h | ⟨kind, ts, hk, rfl⟩
        · subst h
          exact ⟨.typeError, rfl⟩
        · refine ⟨.typeError, ?_⟩
          cases kind with
          | generator => exact absurd rfl hk
          | iterableNonGen => rfl
          | notIterable => rfl
      · cases hnorm : normalizeTransactions input with
        | error e =>
            refine ⟨e, ?_⟩
            unfold itemsets_from_transactions
            rw [hnorm]
        | ok ts =>
            refine ⟨.valueError, ?_⟩
            unfold itemsets_from_transactions
            rw [hnorm]
            have hbad : checkSupport sin = .error .valueError := by
              cases sin with
              | num s =>
                  show (if 0 ≤ s ∧ s ≤ 1 then Except.ok s
                    else Except.error AprioriError.valueError) =
                    Except.error AprioriError.valueError
                  rw [if_neg]
                  intro ⟨h0, h1⟩
                  exact hsv ⟨s, rfl, h0, h1⟩
              | notNum => rfl
            rw [hbad]
  · intro input sin hti
    rcases hti with h | ⟨kind, ts, _, h⟩ <;> subst h <;> rfl
  · intro ts sin
    rfl

/-- C8 counterexample: a zero-argument callable whose invocation returns a
list — an iterable that is not a generator — is rejected with a `TypeError`
even though its returned value is iterable, because line 199 tests
`isinstance(ret_value, collections.Generator)`. -/
theorem claim_C8_counterexample :
    itemsets_from_transactions (.callable .iterableNonGen ([[1]] : List (List ℕ)))
        (.num (1 / 2)) = .error .typeError :=
  rfl

/-- C8 amended: a zero-argument callable is accepted exactly when its
invocation returns a generator; a callable returning any non-generator
value — iterable or not — raises the validation `TypeError`.  (The code
tests for `collections.Generator`, not for iterability, matching its
docstring "a callable returning a generator".) -/
theorem claim_C8 :
    (∀ (ts : List (List α)) (s : ℚ), 0 ≤ s → s ≤ 1 →
      ∃ r, itemsets_from_transactions (.callable .generator ts) (.num s) = .ok r) ∧
    (∀ (kind : RetKind) (ts : List (List α)) (sin : SupportInput),
      kind ≠ RetKind.generator →
        itemsets_from_transactions (.callable kind ts) sin = .error .typeError) := by
  constructor
  · intro ts s h0 h1
    exact ⟨_, itemsets_ok rfl (checkSupport_num h0 h1)⟩
  · intro kind ts sin hk
    cases kind with
    | generator => exact absurd rfl hk
    | iterableNonGen => rfl
    | notIterable => rfl

theorem claim_C8_witness :
    (∃ r, itemsets_from_transactions (.callable .generator [[(1 : ℕ)]]) (.num 0) = .ok r) ∧
      itemsets_from_transactions (.callable .notIterable ([] : List (List ℕ)))
        (.num 0) = .error .typeError :=
  ⟨claim_C8.1 [[1]] 0 le_rfl zero_le_one, claim_C8.2 .notIterable [] (.num 0) (by decide)⟩

theorem claim_C7_witness :
    transactionsReadDuringValidation (.iterable [[(1 : ℕ)]]) SupportInput.notNum = 1 ∧
      (∃ e, itemsets_from_transactions (TransactionsInput.notIterableNotCallable
        (α := ℕ)) (.num 0) = .error e) :=
  ⟨claim_C7.2.2 [[1]] SupportInput.notNum,
    (claim_C7.1 _ _).mpr (Or.inl (Or.inl rfl))⟩

/-- C10: for an iterable input, empty transactions are discarded during
normalization, so the returned transaction count (which is also the support
denominator) is the number of non-empty input records; an input consisting
only of empty transactions yields an empty level mapping and transaction
count 0 without any error. -/
theorem claim_C10 :
    (∀ (ts : List (List α)) (s : ℚ), 0 ≤ s → s ≤ 1 →
      ∃ levels, itemsets_from_transactions (.iterable ts) (.num s) =
        .ok (levels, (ts.filter (fun t => decide (0 < t.length))).length)) ∧
    (∀ (ts : List (List α)) (s : ℚ), 0 ≤ s → s ≤ 1 → (∀ t ∈ ts, t = []) →
      itemsets_from_transactions (.iterable ts) (.num s) = .ok ([], 0)) := by
  constructor
  · intro ts s h0 h1
    have hn : normalizeTransactions (.iterable ts) =
        .ok ((ts.filter (fun t => decide (0 < t.length))).map List.dedup) := rfl
    refine ⟨(mineCore ((ts.filter (fun t => decide (0 < t.length))).map List.dedup) s).1, ?_⟩
    rw [itemsets_ok hn (checkSupport_num h0 h1)]
    have h2 : (mineCore ((ts.filter (fun t => decide (0 < t.length))).map List.dedup) s).2 =
        (ts.filter (fun t => decide (0 < t.length))).length := by
      rw [show (mineCore ((ts.filter (fun t => decide (0 < t.length))).map List.dedup) s).2 =
          ((ts.filter (fun t => decide (0 < t.length))).map List.dedup).length from
        mineWith_snd _ _ _]
      rw [List.length_map]
    rw [← h2, Prod.mk.eta]
  · intro ts s h0 h1 hall
    have hfil : ts.filter (fun t => decide (0 < t.length)) = [] := by
      rw [List.filter_eq_nil_iff]
      intro t ht
      rw [hall t ht]
      simp
    have h1n : normalizeTransactions (.iterable ts) = .ok ([] : List (List α)) := by
      show Except.ok ((ts.filter (fun t => decide (0 < t.length))).map List.dedup) =
        Except.ok ([] : List (List α))
      rw [hfil]
      rfl
    rw [itemsets_ok h1n (checkSupport_num h0 h1)]
    rfl

theorem claim_C10_witness :
    (∃ levels, itemsets_from_transactions (.iterable [[], [(1 : ℕ)]]) (.num 0) =
        .ok (levels, 1)) ∧
      itemsets_from_transactions (.iterable ([[], []] : List (List ℕ))) (.num 0) =
        .ok ([], 0) :=
  ⟨claim_C10.1 [[], [1]] 0 le_rfl zero_le_one,
    claim_C10.2 [[], []] 0 le_rfl zero_le_one (by decide)⟩

/-! ## Properties of the tuple order -/

theorem listLt_cons_iff {a b : α} {as bs : List α} :
    listLt (a :: as) (b :: bs) = true ↔ (a < b ∨ (a = b ∧ listLt as bs = true)) := by
  show (if a < b then true else if a = b then listLt as bs else false) = true ↔ _
  split_ifs with h1 h2
  · simp [h1]
  · simp [h1, h2]
  · simp [h1, h2]

theorem listLt_irrefl (l : List α) : listLt l l = false := by
  induction l with
  | nil => rfl
  | cons a as ih =>
      show (if a < a then true else if a = a then listLt as as else false) = false
      rw [if_neg (lt_irrefl a), if_pos rfl, ih]

theorem listLt_ne {a b : List α} (h : listLt a b = true) : a ≠ b := by
  intro he
  subst he
  rw [listLt_irrefl] at h
  exact Bool.noConfusion h

theorem listLt_trans {a b c : List α} (h1 : listLt a b = true)
    (h2 : listLt b c = true) : listLt a c = true := by
  induction a generalizing b c with
  | nil =>
      cases c with
      | nil =>
          cases b with
          | nil => exact h1
          | cons y ys => exact Bool.noConfusion h2
      | cons z zs => rfl
  | cons x xs ih =>
      cases b with
      | nil => exact Bool.noConfusion h1
      | cons y ys =>
          cases c with
          | nil => exact Bool.noConfusion h2
          | cons z zs =>
              rw [listLt_cons_iff] at h1 h2 ⊢
              rcases h1 with h1 | ⟨he1, h1⟩
              · rcases h2 with h2 | ⟨he2, h2⟩
                · exact Or.inl (lt_trans h1 h2)
                · exact Or.inl (he2 ▸ h1)
              · rcases h2 with h2 | ⟨he2, h2⟩
                · exact Or.inl (he1 ▸ h2)
                · exact Or.inr ⟨he1.trans he2, ih h1 h2⟩

theorem listLt_tri (a b : List α) :
    listLt a b = true ∨ a = b ∨ listLt b a = true := by
  induction a generalizing b with
  | nil =>
      cases b with
      | nil => exact Or.inr (Or.inl rfl)
      | cons y ys => exact Or.inl rfl
  | cons x xs ih =>
      cases b with
      | nil => exact Or.inr (Or.inr rfl)
      | cons y ys =>
          rcases lt_trichotomy x y with h | h | h
          · exact Or.inl (listLt_cons_iff.mpr (Or.inl h))
          · rcases ih ys with h2 | h2 | h2
            · exact Or.inl (listLt_cons_iff.mpr (Or.inr ⟨h, h2⟩))
            · exact Or.inr (Or.inl (by rw [h, h2]))
            · exact Or.inr (Or.inr (listLt_cons_iff.mpr (Or.inr ⟨h.symm, h2⟩)))
          · exact Or.inr (Or.inr (listLt_cons_iff.mpr (Or.inl h)))

theorem listLt_asymm {a b : List α} (h : listLt a b = true) :
    listLt b a = false := by
  rcases Bool.eq_false_or_eq_true (listLt b a) with h2 | h2
  · have := listLt_trans h h2
    rw [listLt_irrefl] at this
    exact Bool.noConfusion this
  · exact h2

theorem listLt_append_right {p u v : List α} (h : listLt u v = true) :
    listLt (p ++ u) (p ++ v) = true := by
  induction p with
  | nil => exact h
  | cons x xs ih => exact listLt_cons_iff.mpr (Or.inr ⟨rfl, ih⟩)

theorem listLt_append_same {p : List α} {a b : α} :
    listLt (p ++ [a]) (p ++ [b]) = true ↔ a < b := by
  induction p with
  | nil =>
      show listLt [a] [b] = true ↔ a < b
      rw [listLt_cons_iff]
      simp [show listLt ([] : List α) [] = false from rfl]
  | cons x xs ih =>
      show listLt (x :: (xs ++ [a])) (x :: (xs ++ [b])) = true ↔ a < b
      rw [listLt_cons_iff]
      simp [lt_irrefl, ih]

theorem listLt_append_lt {p : List α} {a b : α} {u v : List α} (h : a < b) :
    listLt (p ++ a :: u) (p ++ b :: v) = true := by
  induction p with
  | nil => exact listLt_cons_iff.mpr (Or.inl h)
  | cons x xs ih => exact listLt_cons_iff.mpr (Or.inr ⟨rfl, ih⟩)

theorem listLt_append_of_ne {p q : List α} (hlen : p.length = q.length)
    (hne : p ≠ q) (u v : List α) :
    listLt (p ++ u) (q ++ v) = listLt p q := by
  induction p generalizing q with
  | nil =>
      cases q with
      | nil => exact absurd rfl hne
      | cons y ys => exact absurd hlen (by simp)
  | cons x xs ih =>
      cases q with
      | nil => exact absurd hlen (by simp)
      | cons y ys =>
          show (if x < y then true else if x = y then listLt (xs ++ u) (ys ++ v) else false) =
            (if x < y then true else if x = y then listLt xs ys else false)
          split_ifs with h1 h2
          · rfl
          · apply ih
            · simpa using hlen
            · intro he
              exact hne (by rw [h2, he])
          · rfl

/-! ## The three sort relations are total preorders -/

theorem pairLeA_iff {p q : α × α} :
    pairLeA p q = true ↔ (p.1 < q.1 ∨ (p.1 = q.1 ∧ p.2 ≤ q.2)) := by
  unfold pairLeA
  simp

instance totalPairLeA : IsTotal (α × α) (fun p q => pairLeA p q = true) := by
  constructor
  intro p q
  rcases lt_trichotomy p.1 q.1 with h | h | h
  · exact Or.inl (pairLeA_iff.mpr (Or.inl h))
  · rcases le_total p.2 q.2 with h2 | h2
    · exact Or.inl (pairLeA_iff.mpr (Or.inr ⟨h, h2⟩))
    · exact Or.inr (pairLeA_iff.mpr (Or.inr ⟨h.symm, h2⟩))
  · exact Or.inr (pairLeA_iff.mpr (Or.inl h))

instance transPairLeA : IsTrans (α × α) (fun p q => pairLeA p q = true) := by
  constructor
  intro p q r h1 h2
  rw [pairLeA_iff] at h1 h2 ⊢
  rcases h1 with h1 | ⟨he1, h1⟩
  · rcases h2 with h2 | ⟨he2, _⟩
    · exact Or.inl (lt_trans h1 h2)
    · exact Or.inl (he2 ▸ h1)
  · rcases h2 with h2 | ⟨he2, h2⟩
    · exact Or.inl (he1 ▸ h2)
    · exact Or.inr ⟨he1.trans he2, le_trans h1 h2⟩

theorem itemPairLe_iff {p q : α × ℕ} :
    itemPairLe p q = true ↔ (p.1 < q.1 ∨ (p.1 = q.1 ∧ p.2 ≤ q.2)) := by
  unfold itemPairLe
  simp

instance totalItemPairLe : IsTotal (α × ℕ) (fun p q => itemPairLe p q = true) := by
  constructor
  intro p q
  rcases lt_trichotomy p.1 q.1 with h | h | h
  · exact Or.inl (itemPairLe_iff.mpr (Or.inl h))
  · rcases le_total p.2 q.2 with h2 | h2
    · exact Or.inl (itemPairLe_iff.mpr (Or.inr ⟨h, h2⟩))
    · exact Or.inr (itemPairLe_iff.mpr (Or.inr ⟨h.symm, h2⟩))
  · exact Or.inr (itemPairLe_iff.mpr (Or.inl h))

instance transItemPairLe : IsTrans (α × ℕ) (fun p q => itemPairLe p q = true) := by
  constructor
  intro p q r h1 h2
  rw [itemPairLe_iff] at h1 h2 ⊢
  rcases h1 with h1 | ⟨he1, h1⟩
  · rcases h2 with h2 | ⟨he2, _⟩
    · exact Or.inl (lt_trans h1 h2)
    · exact Or.inl (he2 ▸ h1)
  · rcases h2 with h2 | ⟨he2, h2⟩
    · exact Or.inl (he1 ▸ h2)
    · exact Or.inr ⟨he1.trans he2, le_trans h1 h2⟩

theorem levelLe_iff {p q : List α × ℕ} :
    levelLe p q = true ↔ (listLt p.1 q.1 = true ∨ (p.1 = q.1 ∧ p.2 ≤ q.2)) := by
  unfold levelLe
  simp

instance totalLevelLe : IsTotal (List α × ℕ) (fun p q => levelLe p q = true) := by
  constructor
  intro p q
  rcases listLt_tri p.1 q.1 with h | h | h
  · exact Or.inl (levelLe_iff.mpr (Or.inl h))
  · rcases le_total p.2 q.2 with h2 | h2
    · exact Or.inl (levelLe_iff.mpr (Or.inr ⟨h, h2⟩))
    · exact Or.inr (levelLe_iff.mpr (Or.inr ⟨h.symm, h2⟩))
  · exact Or.inr (levelLe_iff.mpr (Or.inl h))

instance transLevelLe : IsTrans (List α × ℕ) (fun p q => levelLe p q = true) := by
  constructor
  intro p q r h1 h2
  rw [levelLe_iff] at h1 h2 ⊢
  rcases h1 with h1 | ⟨he1, h1⟩
  · rcases h2 with h2 | ⟨he2, _⟩
    · exact Or.inl (listLt_trans h1 h2)
    · exact Or.inl (he2 ▸ h1)
  · rcases h2 with h2 | ⟨he2, h2⟩
    · exact Or.inl (he1 ▸ h2)
    · exact Or.inr ⟨he1.trans he2, le_trans h1 h2⟩

/-! ## Sorting with distinct keys yields strictly increasing keys -/

theorem sortLevel_perm (l : List (List α × ℕ)) : (sortLevel l).Perm l :=
  List.perm_insertionSort _ l

theorem sortLevel_strict {l : List (List α × ℕ)}
    (h : l.Pairwise (fun p q => p.1 ≠ q.1)) :
    (sortLevel l).Pairwise (fun p q => listLt p.1 q.1 = true) := by
  have hs : (sortLevel l).Pairwise (fun p q => levelLe p q = true) :=
    List.sorted_insertionSort _ l
  have hne : (sortLevel l).Pairwise (fun p q => p.1 ≠ q.1) :=
    ((sortLevel_perm l).pairwise_iff (fun h => h.symm)).mpr h
  refine (hs.and hne).imp ?_
  rintro p q ⟨hle, hpq⟩
  rcases levelLe_iff.mp hle with h | ⟨he, _⟩
  · exact h
  · exact absurd he hpq

theorem large_one_strict (ts : List (List α)) (sup : ℕ → Bool) :
    (large_one ts sup).Pairwise (fun p q => listLt p.1 q.1 = true) := by
  unfold large_one
  rw [List.pairwise_map]
  have hcnt : (itemCounts ts).Pairwise (fun p q : α × ℕ => p.1 ≠ q.1) := by
    unfold itemCounts
    rw [List.pairwise_map]
    exact (List.nodup_dedup ts.flatten).imp (fun h => h)
  have hfil : ((itemCounts ts).filter (fun ic => sup ic.2)).Pairwise
      (fun p q : α × ℕ => p.1 ≠ q.1) := hcnt.filter _
  have hsorted : (List.insertionSort (fun p q : α × ℕ => itemPairLe p q = true)
      ((itemCounts ts).filter (fun ic => sup ic.2))).Pairwise
      (fun p q => itemPairLe p q = true) :=
    List.sorted_insertionSort _ _
  have hne : (List.insertionSort (fun p q : α × ℕ => itemPairLe p q = true)
      ((itemCounts ts).filter (fun ic => sup ic.2))).Pairwise
      (fun p q : α × ℕ => p.1 ≠ q.1) :=
    ((List.perm_insertionSort _ _).pairwise_iff (fun h => h.symm)).mpr hfil
  refine (hsorted.and hne).imp ?_
  rintro p q ⟨hle, hpq⟩
  have hlt : p.1 < q.1 := by
    rcases itemPairLe_iff.mp hle with h | ⟨he, _⟩
    · exact h
    · exact absurd he hpq
  exact listLt_cons_iff.mpr (Or.inl hlt)

/-! ## Facts about combinations of a strictly increasing list -/

theorem mem_combinations2 {l : List α} {ab : α × α}
    (hl : l.Pairwise (· < ·)) (h : ab ∈ combinations2 l) :
    ab.1 ∈ l ∧ ab.2 ∈ l ∧ ab.1 < ab.2 := by
  induction l with
  | nil => exact absurd h (by simp [combinations2])
  | cons x xs ih =>
      rw [show combinations2 (x :: xs) = xs.map (fun y => (x, y)) ++ combinations2 xs
        from rfl, List.mem_append] at h
      rcases h with h | h
      · obtain ⟨y, hy, he⟩ := List.mem_map.mp h
        subst he
        exact ⟨List.mem_cons_self x xs, List.mem_cons_of_mem x hy,
          (List.pairwise_cons.mp hl).1 y hy⟩
      · obtain ⟨h1, h2, h3⟩ := ih (List.pairwise_cons.mp hl).2 h
        exact ⟨List.mem_cons_of_mem x h1, List.mem_cons_of_mem x h2, h3⟩

theorem combinations2_nodup {l : List α} (hl : l.Pairwise (· < ·)) :
    (combinations2 l).Nodup := by
  induction l with
  | nil => exact List.nodup_nil
  | cons x xs ih =>
      obtain ⟨hx, hxs⟩ := List.pairwise_cons.mp hl
      rw [show combinations2 (x :: xs) = xs.map (fun y => (x, y)) ++ combinations2 xs
        from rfl]
      apply List.Nodup.append
      · apply List.Nodup.map
        · intro a b he
          exact congrArg Prod.snd he
        · exact hxs.imp ne_of_lt
      · exact ih hxs
      · intro ab hab1 hab2
        obtain ⟨y, hy, he⟩ := List.mem_map.mp hab1
        subst he
        obtain ⟨h1, _, _⟩ := mem_combinations2 hxs hab2
        exact absurd (hx x h1) (lt_irrefl x)

/-! ## Structure of join_step -/

theorem joinAux_stable : ∀ (f g : ℕ) (l : List (List α)), l.length ≤ f →
    l.length ≤ g → joinAux f l = joinAux g l := by
  intro f
  induction f with
  | zero =>
      intro g l hf _
      have hl : l = [] := List.length_eq_zero.mp (Nat.le_zero.mp hf)
      subst hl
      cases g <;> rfl
  | succ f ih =>
      intro g l hf hg
      cases l with
      | nil => cases g <;> rfl
      | cons x xs =>
          cases g with
          | zero => exact absurd hg (by simp)
          | succ g =>
              have hrest : (xs.dropWhile (fun y => decide (y.dropLast = x.dropLast))).length ≤
                  xs.length := (List.dropWhile_sublist _).length_le
              have hxf : xs.length ≤ f := Nat.succ_le_succ_iff.mp (by simpa using hf)
              have hxg : xs.length ≤ g := Nat.succ_le_succ_iff.mp (by simpa using hg)
              exact congrArg (fun z => blockCands x xs ++ z)
                (ih g _ (le_trans hrest hxf) (le_trans hrest hxg))

theorem join_step_cons (x : List α) (xs : List (List α)) :
    join_step (x :: xs) =
      blockCands x xs ++
        join_step (xs.dropWhile (fun y => decide (y.dropLast = x.dropLast))) := by
  have hrest : (xs.dropWhile (fun y => decide (y.dropLast = x.dropLast))).length ≤
      xs.length := (List.dropWhile_sublist _).length_le
  exact congrArg (fun z => blockCands x xs ++ z)
    (joinAux_stable xs.length _ _ hrest le_rfl)

theorem joinBlock_mem {x y : List α} {xs : List (List α)} (h : y ∈ joinBlock x xs) :
    y ∈ xs ∧ y.dropLast = x.dropLast := by
  unfold joinBlock at h
  have hp := @List.mem_takeWhile_imp (List α)
    (fun z => decide (z.dropLast = x.dropLast)) xs y h
  exact ⟨(List.takeWhile_sublist _).subset h, of_decide_eq_true hp⟩

/-- Every member of the block headed by `x` equals the shared prefix
`x.dropLast` followed by its own tail item. -/
theorem block_decomp {x : List α} {xs : List (List α)}
    (hne : ∀ y ∈ x :: xs, y ≠ []) :
    ∀ y ∈ x :: joinBlock x xs, y = x.dropLast ++ [y.getLastD default] := by
  intro y hy
  have hyx : y ∈ x :: xs ∧ y.dropLast = x.dropLast := by
    rcases List.mem_cons.mp hy with h | h
    · exact ⟨h ▸ List.mem_cons_self x xs, by rw [h]⟩
    · obtain ⟨h1, h2⟩ := joinBlock_mem h
      exact ⟨List.mem_cons_of_mem x h1, h2⟩
  rcases List.eq_nil_or_concat y with h | ⟨p, a, hpa⟩
  · exact absurd h (hne y hyx.1)
  · rw [List.concat_eq_append] at hpa
    subst hpa
    rw [← hyx.2, List.dropLast_concat]
    simp

theorem fullBlock_sorted {x : List α} {xs : List (List α)}
    (hsort : (x :: xs).Pairwise (fun y z => listLt y z = true)) :
    (x :: joinBlock x xs).Pairwise (fun y z => listLt y z = true) :=
  hsort.sublist ((List.takeWhile_sublist _).cons₂ x)

theorem tail_items_sorted {x : List α} {xs : List (List α)}
    (hne : ∀ y ∈ x :: xs, y ≠ [])
    (hsort : (x :: xs).Pairwise (fun y z => listLt y z = true)) :
    ((x :: joinBlock x xs).map (fun y => y.getLastD default)).Pairwise (· < ·) := by
  rw [List.pairwise_map]
  apply List.Pairwise.imp_of_mem ?_ (fullBlock_sorted hsort)
  intro y z hy hz hlt
  rw [block_decomp hne y hy, block_decomp hne z hz] at hlt
  exact listLt_append_same.mp hlt

/-- Shape of one block's candidates: every candidate is the shared prefix
plus two tail items `a < b`, and the two length-`k` itemsets obtained by
keeping only `a` or only `b` are members of the block. -/
theorem blockCands_mem {x : List α} {xs : List (List α)} {c : List α}
    (hne : ∀ y ∈ x :: xs, y ≠ [])
    (hsort : (x :: xs).Pairwise (fun y z => listLt y z = true))
    (hc : c ∈ blockCands x xs) :
    ∃ a b, c = x.dropLast ++ [a, b] ∧ a < b ∧
      x.dropLast ++ [a] ∈ x :: joinBlock x xs ∧
      x.dropLast ++ [b] ∈ x :: joinBlock x xs := by
  have htails := tail_items_sorted hne hsort
  simp only [blockCands] at hc
  obtain ⟨ab, hab, he⟩ := List.mem_map.mp hc
  have hab2 : ab ∈ combinations2 ((x :: joinBlock x xs).map (fun y => y.getLastD default)) :=
    (List.perm_insertionSort _ _).subset hab
  obtain ⟨ha, hb, hlt⟩ := mem_combinations2 htails hab2
  obtain ⟨y, hy, hya⟩ := List.mem_map.mp ha
  obtain ⟨z, hz, hzb⟩ := List.mem_map.mp hb
  refine ⟨ab.1, ab.2, he.symm, hlt, ?_, ?_⟩
  · rw [← hya, ← block_decomp hne y hy]
    exact hy
  · rw [← hzb, ← block_decomp hne z hz]
    exact hz

/-- Every candidate of `join_step` on a sorted duplicate-free list of
non-empty itemsets is a shared prefix plus two tail items in ascending
order, and dropping either tail item gives back a member of the input. -/
theorem join_mem_aux : ∀ (n : ℕ) (L : List (List α)), L.length ≤ n →
    (∀ y ∈ L, y ≠ []) → L.Pairwise (fun y z => listLt y z = true) →
    ∀ c ∈ join_step L,
      ∃ pfx a b, c = pfx ++ [a, b] ∧ a < b ∧ pfx ++ [a] ∈ L ∧ pfx ++ [b] ∈ L := by
  intro n
  induction n with
  | zero =>
      intro L hL _ _ c hc
      have hl : L = [] := List.length_eq_zero.mp (Nat.le_zero.mp hL)
      subst hl
      exact absurd hc (by simp [join_step, joinAux])
  | succ n ih =>
      intro L hL hne hsort c hc
      cases L with
      | nil => exact absurd hc (by simp [join_step, joinAux])
      | cons x xs =>
          rw [join_step_cons] at hc
          rcases List.mem_append.mp hc with hc | hc
          · obtain ⟨a, b, he, hab, haM, hbM⟩ := blockCands_mem hne hsort hc
            have hsub : (x :: joinBlock x xs).Sublist (x :: xs) :=
              (List.takeWhile_sublist _).cons₂ x
            exact ⟨x.dropLast, a, b, he, hab, hsub.subset haM, hsub.subset hbM⟩
          · have hrestSub : (xs.dropWhile
                (fun y => decide (y.dropLast = x.dropLast))).Sublist (x :: xs) :=
              (List.dropWhile_sublist _).trans (List.sublist_cons_self x xs)
            have hrestLen : (xs.dropWhile
                (fun y => decide (y.dropLast = x.dropLast))).length ≤ n :=
              le_trans (List.dropWhile_sublist _).length_le
                (Nat.succ_le_succ_iff.mp (by simpa using hL))
            obtain ⟨pfx, a, b, he, hab, haM, hbM⟩ :=
              ih _ hrestLen (fun y hy => hne y (hrestSub.subset hy))
                (hsort.sublist hrestSub) c hc
            exact ⟨pfx, a, b, he, hab, hrestSub.subset haM, hrestSub.subset hbM⟩

theorem join_mem {L : List (List α)} (hne : ∀ y ∈ L, y ≠ [])
    (hsort : L.Pairwise (fun y z => listLt y z = true)) {c : List α}
    (hc : c ∈ join_step L) :
    ∃ pfx a b, c = pfx ++ [a, b] ∧ a < b ∧ pfx ++ [a] ∈ L ∧ pfx ++ [b] ∈ L :=
  join_mem_aux L.length L le_rfl hne hsort c hc

/-- Static facts about candidates: one longer than the inputs, itemwise
strictly increasing, and item-supported by the inputs. -/
theorem join_facts {L : List (List α)} {ℓ : ℕ} (hne : ∀ y ∈ L, y ≠ [])
    (hsort : L.Pairwise (fun y z => listLt y z = true))
    (hlen : ∀ y ∈ L, y.length = ℓ)
    (hch : ∀ y ∈ L, y.Pairwise (· < ·)) {c : List α}
    (hc : c ∈ join_step L) :
    c.length = ℓ + 1 ∧ c.Pairwise (· < ·) ∧ ∀ e ∈ c, ∃ y ∈ L, e ∈ y := by
  obtain ⟨pfx, a, b, he, hab, haM, hbM⟩ := join_mem hne hsort hc
  subst he
  have hlenA : (pfx ++ [a]).length = ℓ := hlen _ haM
  have hpfx : pfx.length + 1 = ℓ := by simpa using hlenA
  have hchA : (pfx ++ [a]).Pairwise (· < ·) := hch _ haM
  obtain ⟨hp1, _, hcross⟩ := List.pairwise_append.mp hchA
  refine ⟨by simp [← hpfx], ?_, ?_⟩
  · apply List.pairwise_append.mpr
    refine ⟨hp1, ?_, ?_⟩
    · exact List.pairwise_cons.mpr ⟨fun e hb => by
        rw [List.mem_singleton.mp hb]; exact hab, by simp⟩
    · intro e hep f hf
      have hea : e < a := hcross e hep a (List.mem_singleton_self a)
      rcases List.mem_cons.mp hf with h | h
      · exact h ▸ hea
      · rw [List.mem_singleton.mp h]
        exact lt_trans hea hab
  · intro e hee
    rcases List.mem_append.mp hee with h | h
    · exact ⟨pfx ++ [a], haM, List.mem_append.mpr (Or.inl h)⟩
    · rcases List.mem_cons.mp h with h | h
      · refine ⟨pfx ++ [a], haM, ?_⟩
        rw [h]
        exact List.mem_append.mpr (Or.inr (List.mem_singleton_self a))
      · rw [List.mem_singleton.mp h]
        exact ⟨pfx ++ [b], hbM, List.mem_append.mpr (Or.inr (List.mem_singleton_self b))⟩

/-- Within one block the emitted candidates are strictly increasing in the
tuple order: the pair list is sorted and duplicate-free, and appending the
pair to the shared prefix preserves strictness. -/
theorem blockCands_pairwise {x : List α} {xs : List (List α)}
    (hne : ∀ y ∈ x :: xs, y ≠ [])
    (hsort : (x :: xs).Pairwise (fun y z => listLt y z = true)) :
    (blockCands x xs).Pairwise (fun c d => listLt c d = true) := by
  have htails := tail_items_sorted hne hsort
  simp only [blockCands]
  rw [List.pairwise_map]
  have hnodup : (List.insertionSort (fun p q : α × α => pairLeA p q = true)
      (combinations2 ((x :: joinBlock x xs).map (fun y => y.getLastD default)))).Nodup :=
    (List.perm_insertionSort _ _).nodup_iff.mpr (combinations2_nodup htails)
  have hsorted : (List.insertionSort (fun p q : α × α => pairLeA p q = true)
      (combinations2 ((x :: joinBlock x xs).map (fun y => y.getLastD default)))).Pairwise
      (fun p q => pairLeA p q = true) := List.sorted_insertionSort _ _
  refine (hsorted.and hnodup).imp ?_
  rintro p q ⟨hle, hne2⟩
  rcases pairLeA_iff.mp hle with h | ⟨he, hle2⟩
  · exact listLt_append_lt h
  · have hlt2 : p.2 < q.2 :=
      lt_of_le_of_ne hle2 (fun h2 => hne2 (Prod.ext_iff.mpr ⟨he, h2⟩))
    have h1 : listLt ((x.dropLast ++ [p.1]) ++ [p.2])
        ((x.dropLast ++ [p.1]) ++ [q.2]) = true := listLt_append_same.mpr hlt2
    have h2 : (x.dropLast ++ [p.1]) ++ [p.2] = x.dropLast ++ [p.1, p.2] := by simp
    have h3 : (x.dropLast ++ [p.1]) ++ [q.2] = x.dropLast ++ [q.1, q.2] := by
      rw [← he]
      simp
    rw [h2, h3] at h1
    exact h1

/-- The split of the input into the first block and the remainder. -/
theorem join_split (x : List α) (xs : List (List α)) :
    x :: xs = (x :: joinBlock x xs) ++
      xs.dropWhile (fun y => decide (y.dropLast = x.dropLast)) := by
  have h1 := List.takeWhile_append_dropWhile
    (fun y : List α => decide (y.dropLast = x.dropLast)) (x :: xs)
  rw [List.takeWhile_cons_of_pos (by simp), List.dropWhile_cons_of_pos (by simp)] at h1
  exact h1.symm

/-- The output of `join_step` on a sorted duplicate-free list of non-empty
length-uniform itemsets is itself strictly sorted in the tuple order. -/
theorem join_sorted_aux : ∀ (n : ℕ) (L : List (List α)) (ℓ : ℕ), L.length ≤ n →
    (∀ y ∈ L, y ≠ []) → L.Pairwise (fun y z => listLt y z = true) →
    (∀ y ∈ L, y.length = ℓ) →
    (join_step L).Pairwise (fun c d => listLt c d = true) := by
  intro n
  induction n with
  | zero =>
      intro L ℓ hL _ _ _
      have hl : L = [] := List.length_eq_zero.mp (Nat.le_zero.mp hL)
      subst hl
      simp [join_step, joinAux]
  | succ n ih =>
      intro L ℓ hL hne hsort hlen
      cases L with
      | nil => simp [join_step, joinAux]
      | cons x xs =>
          rw [join_step_cons]
          have hrestSub : (xs.dropWhile
              (fun y => decide (y.dropLast = x.dropLast))).Sublist (x :: xs) :=
            (List.dropWhile_sublist _).trans (List.sublist_cons_self x xs)
          have hrestLen : (xs.dropWhile
              (fun y => decide (y.dropLast = x.dropLast))).length ≤ n :=
            le_trans (List.dropWhile_sublist _).length_le
              (Nat.succ_le_succ_iff.mp (by simpa using hL))
          have hfsub : (x :: joinBlock x xs).Sublist (x :: xs) :=
            (List.takeWhile_sublist _).cons₂ x
          apply List.pairwise_append.mpr
          refine ⟨blockCands_pairwise hne hsort,
            ih _ ℓ hrestLen (fun y hy => hne y (hrestSub.subset hy))
              (hsort.sublist hrestSub) (fun y hy => hlen y (hrestSub.subset hy)), ?_⟩
          intro c1 hc1 c2 hc2
          obtain ⟨a, b, he1, hab1, haM, hbM⟩ := blockCands_mem hne hsort hc1
          obtain ⟨pfx2, a2, b2, he2, hab2, haM2, hbM2⟩ :=
            join_mem (fun y hy => hne y (hrestSub.subset hy))
              (hsort.sublist hrestSub) hc2
          have hcross : ∀ y ∈ x :: joinBlock x xs,
              ∀ z ∈ xs.dropWhile (fun y => decide (y.dropLast = x.dropLast)),
              listLt y z = true := by
            have hs2 := (join_split x xs) ▸ hsort
            exact (List.pairwise_append.mp hs2).2.2
          have hyz : listLt (x.dropLast ++ [a]) (pfx2 ++ [a2]) = true :=
            hcross _ haM _ haM2
          have hlen1 : (x.dropLast ++ [a]).length = ℓ := hlen _ (hfsub.subset haM)
          have hlen2 : (pfx2 ++ [a2]).length = ℓ := hlen _ (hrestSub.subset haM2)
          have hplen : x.dropLast.length = pfx2.length := by
            simp only [List.length_append, List.length_singleton] at hlen1 hlen2
            omega
          by_cases hpe : x.dropLast = pfx2
          · rw [← hpe] at hyz
            have ha : a < a2 := listLt_append_same.mp hyz
            rw [he1, he2, ← hpe]
            exact listLt_append_lt ha
          · have hpl : listLt x.dropLast pfx2 = true := by
              rw [← listLt_append_of_ne hplen hpe [a] [a2]]
              exact hyz
            rw [he1, he2, listLt_append_of_ne hplen hpe [a, b] [a2, b2]]
            exact hpl

theorem join_sorted {L : List (List α)} {ℓ : ℕ} (hne : ∀ y ∈ L, y ≠ [])
    (hsort : L.Pairwise (fun y z => listLt y z = true))
    (hlen : ∀ y ∈ L, y.length = ℓ) :
    (join_step L).Pairwise (fun c d => listLt c d = true) :=
  join_sorted_aux L.length L ℓ le_rfl hne hsort hlen

theorem join_nodup {L : List (List α)} {ℓ : ℕ} (hne : ∀ y ∈ L, y ≠ [])
    (hsort : L.Pairwise (fun y z => listLt y z = true))
    (hlen : ∀ y ∈ L, y.length = ℓ) :
    (join_step L).Nodup :=
  (join_sorted hne hsort hlen).imp listLt_ne

/-! ## Removing one item -/

theorem removedAt_cons_succ (x : α) (l : List α) (i : ℕ) :
    removedAt (x :: l) (i + 1) = x :: removedAt l i := rfl

theorem removedAt_pfx0 (p : List α) (a b : α) :
    removedAt (p ++ [a, b]) p.length = p ++ [b] := by
  induction p with
  | nil => rfl
  | cons x q ih =>
      show x :: removedAt (q ++ [a, b]) q.length = x :: (q ++ [b])
      exact congrArg (x :: ·) ih

theorem removedAt_pfx1 (p : List α) (a b : α) :
    removedAt (p ++ [a, b]) (p.length + 1) = p ++ [a] := by
  induction p with
  | nil => rfl
  | cons x q ih =>
      show x :: removedAt (q ++ [a, b]) (q.length + 1) = x :: (q ++ [a])
      exact congrArg (x :: ·) ih

theorem removedAt_subset (l : List α) (i : ℕ) : removedAt l i ⊆ l := by
  intro e he
  rcases List.mem_append.mp he with h | h
  · exact List.take_subset i l h
  · exact List.drop_subset (i + 1) l h

theorem prune_step_mem {L P : List (List α)} {c : List α} :
    c ∈ prune_step L P ↔ c ∈ P ∧ ∀ i < c.length - 2, removedAt c i ∈ L := by
  unfold prune_step
  rw [List.mem_filter]
  simp [List.all_eq_true, List.mem_range]

/-- On the output of `join_step`, the partial subset checks of `prune_step`
are equivalent to checking every one-item-removed subset: the two removals
it skips are supplied by the join. -/
theorem prune_join_mem {L : List (List α)} (hne : ∀ y ∈ L, y ≠ [])
    (hsort : L.Pairwise (fun y z => listLt y z = true)) {c : List α} :
    c ∈ prune_step L (join_step L) ↔
      (c ∈ join_step L ∧ ∀ i < c.length, removedAt c i ∈ L) := by
  rw [prune_step_mem]
  constructor
  · rintro ⟨hj, hall⟩
    refine ⟨hj, ?_⟩
    obtain ⟨pfx, a, b, he, hab, haM, hbM⟩ := join_mem hne hsort hj
    have hclen : c.length = pfx.length + 2 := by rw [he]; simp
    intro i hi
    rcases lt_trichotomy i pfx.length with h | h | h
    · exact hall i (by omega)
    · rw [h, he, removedAt_pfx0]
      exact hbM
    · have h2 : i = pfx.length + 1 := by omega
      rw [h2, he, removedAt_pfx1]
      exact haM
  · rintro ⟨hj, hall⟩
    exact ⟨hj, fun i hi => hall i (by omega)⟩

/-- C3: on a sorted duplicate-free list `L` of internally strictly sorted
length-`k` itemsets, every `join_step` candidate yields a member of `L`
when its last or second-to-last item is removed, and consequently
`prune_step L (join_step L)` — which only tests removal positions
`0 .. k - 2` — equals the filter keeping exactly the candidates all of
whose one-item-removed subsets are members of `L`. -/
theorem claim_C3 (L : List (List α)) (k : ℕ) (hk : 1 ≤ k)
    (hlen : ∀ y ∈ L, y.length = k)
    (hchain : ∀ y ∈ L, y.Pairwise (fun a b => a < b))
    (hsort : L.Pairwise (fun y z => listLt y z = true)) :
    (∀ c ∈ join_step L,
      removedAt c (c.length - 1) ∈ L ∧ removedAt c (c.length - 2) ∈ L) ∧
    prune_step L (join_step L) =
      (join_step L).filter (fun c =>
        (List.range c.length).all (fun i => decide (removedAt c i ∈ L))) := by
  have hne : ∀ y ∈ L, y ≠ [] := by
    intro y hy he
    have h1 := hlen y hy
    rw [he] at h1
    simp at h1
    omega
  constructor
  · intro c hc
    obtain ⟨pfx, a, b, he, hab, haM, hbM⟩ := join_mem hne hsort hc
    have hclen : c.length = pfx.length + 2 := by rw [he]; simp
    constructor
    · have h1 : c.length - 1 = pfx.length + 1 := by omega
      rw [h1, he, removedAt_pfx1]
      exact haM
    · have h2 : c.length - 2 = pfx.length := by omega
      rw [h2, he, removedAt_pfx0]
      exact hbM
  · unfold prune_step
    apply List.filter_congr
    intro c hc
    by_cases hall : ∀ i < c.length, removedAt c i ∈ L
    · have h1 : (List.range (c.length - 2)).all
          (fun i => decide (removedAt c i ∈ L)) = true :=
        List.all_eq_true.mpr (fun i hi =>
          decide_eq_true (hall i (by have := List.mem_range.mp hi; omega)))
      have h2 : (List.range c.length).all
          (fun i => decide (removedAt c i ∈ L)) = true :=
        List.all_eq_true.mpr (fun i hi =>
          decide_eq_true (hall i (List.mem_range.mp hi)))
      rw [h1, h2]
    · push_neg at hall
      obtain ⟨i, hi, hnot⟩ := hall
      obtain ⟨pfx, a, b, he, hab, haM, hbM⟩ := join_mem hne hsort hc
      have hclen : c.length = pfx.length + 2 := by rw [he]; simp
      have hi2 : i < c.length - 2 := by
        rcases lt_trichotomy i pfx.length with h | h | h
        · omega
        · exfalso
          apply hnot
          rw [h, he, removedAt_pfx0]
          exact hbM
        · have h2 : i = pfx.length + 1 := by omega
          exfalso
          apply hnot
          rw [h2, he, removedAt_pfx1]
          exact haM
      have h1 : (List.range (c.length - 2)).all
          (fun i => decide (removedAt c i ∈ L)) = false := by
        rw [Bool.eq_false_iff]
        intro hh
        exact hnot (of_decide_eq_true
          (List.all_eq_true.mp hh i (List.mem_range.mpr hi2)))
      have h2 : (List.range c.length).all
          (fun i => decide (removedAt c i ∈ L)) = false := by
        rw [Bool.eq_false_iff]
        intro hh
        exact hnot (of_decide_eq_true
          (List.all_eq_true.mp hh i (List.mem_range.mpr hi)))
      rw [h1, h2]

theorem claim_C3_witness :
    (∀ c ∈ join_step [[1, 2, 3], [1, 2, 4], [1, 3, 4], [1, 3, 5], [2, 3, 4]],
      removedAt c (c.length - 1) ∈
        [[1, 2, 3], [1, 2, 4], [1, 3, 4], [1, 3, 5], [2, 3, 4]] ∧
      removedAt c (c.length - 2) ∈
        [[1, 2, 3], [1, 2, 4], [1, 3, 4], [1, 3, 5], [2, 3, 4]]) ∧
    prune_step [[1, 2, 3], [1, 2, 4], [1, 3, 4], [1, 3, 5], [2, 3, 4]]
        (join_step [[1, 2, 3], [1, 2, 4], [1, 3, 4], [1, 3, 5], [2, 3, 4]]) =
      (join_step [[1, 2, 3], [1, 2, 4], [1, 3, 4], [1, 3, 5], [2, 3, 4]]).filter
        (fun c => (List.range c.length).all (fun i =>
          decide (removedAt c i ∈
            [[1, 2, 3], [1, 2, 4], [1, 3, 4], [1, 3, 5], [2, 3, 4]]))) :=
  claim_C3 [[1, 2, 3], [1, 2, 4], [1, 3, 4], [1, 3, 5], [2, 3, 4]] 3
    (by decide) (by decide) (by decide) (by decide)

/-- C9: `join_step` on the five itemsets of the 1994 paper yields exactly
`[(1,2,3,4), (1,3,4,5)]`, and in general — for a sorted duplicate-free list
of internally strictly sorted length-`k` itemsets — every emitted candidate
is a strictly sorted length-`(k+1)` tuple formed from a shared
`(k-1)`-prefix plus two distinct tail items in ascending order, both coming
from input itemsets. -/
theorem claim_C9 :
    join_step [[1, 2, 3], [1, 2, 4], [1, 3, 4], [1, 3, 5], [2, 3, 4]] =
        [[1, 2, 3, 4], [1, 3, 4, 5]] ∧
    ∀ (L : List (List α)) (k : ℕ), 1 ≤ k → (∀ y ∈ L, y.length = k) →
      (∀ y ∈ L, y.Pairwise (fun a b => a < b)) →
      L.Pairwise (fun y z => listLt y z = true) →
      ∀ c ∈ join_step L, ∃ pfx a b, c = pfx ++ [a, b] ∧ a < b ∧
        pfx.length = k - 1 ∧ c.length = k + 1 ∧
        c.Pairwise (fun a b => a < b) ∧ pfx ++ [a] ∈ L ∧ pfx ++ [b] ∈ L := by
  refine ⟨by decide, ?_⟩
  intro L k hk hlen hchain hsort c hc
  have hne : ∀ y ∈ L, y ≠ [] := by
    intro y hy he
    have h1 := hlen y hy
    rw [he] at h1
    simp at h1
    omega
  obtain ⟨pfx, a, b, he, hab, haM, hbM⟩ := join_mem hne hsort hc
  obtain ⟨hclen, hcchain, _⟩ := join_facts hne hsort hlen hchain hc
  have hpl : pfx.length + 1 = k := by
    have h1 := hlen _ haM
    simpa using h1
  exact ⟨pfx, a, b, he, hab, by omega, hclen, hcchain, haM, hbM⟩

theorem claim_C9_witness :
    ∃ pfx a b, ([1, 2, 3, 4] : List ℕ) = pfx ++ [a, b] ∧ a < b ∧
      pfx.length = 2 ∧ ([1, 2, 3, 4] : List ℕ).length = 4 ∧
      ([1, 2, 3, 4] : List ℕ).Pairwise (fun a b => a < b) ∧
      pfx ++ [a] ∈ [[1, 2, 3], [1, 2, 4]] ∧ pfx ++ [b] ∈ [[1, 2, 3], [1, 2, 4]] :=
  claim_C9.2 [[1, 2, 3], [1, 2, 4]] 3 (by decide) (by decide) (by decide)
    (by decide) [1, 2, 3, 4] (by decide)

/-! ## The invariant carried by every installed level -/

/-- Invariant of a level of key length `ℓ` over the item alphabet `A`:
every key is a strictly increasing length-`ℓ` tuple of items of `A`, and
the level is strictly sorted by key in the tuple order (so keys are
duplicate-free). -/
def LevelInv (A : List α) (ℓ : ℕ) (lvl : List (List α × ℕ)) : Prop :=
  1 ≤ ℓ ∧
  (∀ p ∈ lvl, p.1.length = ℓ ∧ p.1.Pairwise (fun a b => a < b) ∧ ∀ e ∈ p.1, e ∈ A) ∧
  lvl.Pairwise (fun p q => listLt p.1 q.1 = true)

/-- The generated candidates of one loop iteration (line 252). -/
def levelCk (prev : List (List α × ℕ)) : List (List α) :=
  prune_step (prev.map Prod.fst) (join_step (prev.map Prod.fst))

/-- The candidates surviving counting and the support filter (lines 256-280). -/
def levelCounted (ts : List (List α)) (mask : ℕ → Bool) (sup : ℕ → Bool)
    (prev : List (List α × ℕ)) : List (List α × ℕ) :=
  (candCounts ts mask (levelCk prev)).filter (fun ic => sup ic.2)

theorem apriori_loop_succ (ts : List (List α)) (sup : ℕ → Bool) (fuel : ℕ)
    (prev : List (List α × ℕ)) (mask : ℕ → Bool) :
    apriori_loop ts sup (fuel + 1) prev mask =
      if prev.isEmpty then []
      else if (levelCounted ts mask sup prev).isEmpty then []
      else sortLevel (levelCounted ts mask sup prev) ::
        apriori_loop ts sup fuel (sortLevel (levelCounted ts mask sup prev))
          (updateMask ts (levelCk prev) mask) := rfl

theorem inv_keys_len {A : List α} {ℓ : ℕ} {prev : List (List α × ℕ)}
    (h : LevelInv A ℓ prev) : ∀ y ∈ prev.map Prod.fst, y.length = ℓ := by
  intro y hy
  obtain ⟨p, hp, he⟩ := List.mem_map.mp hy
  exact he ▸ (h.2.1 p hp).1

theorem inv_keys_chain {A : List α} {ℓ : ℕ} {prev : List (List α × ℕ)}
    (h : LevelInv A ℓ prev) :
    ∀ y ∈ prev.map Prod.fst, y.Pairwise (fun a b => a < b) := by
  intro y hy
  obtain ⟨p, hp, he⟩ := List.mem_map.mp hy
  exact he ▸ (h.2.1 p hp).2.1

theorem inv_keys_ne_nil {A : List α} {ℓ : ℕ} {prev : List (List α × ℕ)}
    (h : LevelInv A ℓ prev) : ∀ y ∈ prev.map Prod.fst, y ≠ [] := by
  intro y hy he
  have h1 := inv_keys_len h y hy
  have h0 := h.1
  rw [he] at h1
  simp at h1
  omega

theorem inv_keys_sorted {A : List α} {ℓ : ℕ} {prev : List (List α × ℕ)}
    (h : LevelInv A ℓ prev) :
    (prev.map Prod.fst).Pairwise (fun y z => listLt y z = true) :=
  List.pairwise_map.mpr h.2.2

/-- Every surviving candidate is a strictly increasing tuple of length
`ℓ + 1` over `A`, and all of its one-item-removed subsets are keys of the
previous level. -/
theorem levelCk_facts {A : List α} {ℓ : ℕ} {prev : List (List α × ℕ)}
    (h : LevelInv A ℓ prev) {c : List α} (hc : c ∈ levelCk prev) :
    c.length = ℓ + 1 ∧ c.Pairwise (fun a b => a < b) ∧ (∀ e ∈ c, e ∈ A) ∧
    ∀ i < c.length, removedAt c i ∈ prev.map Prod.fst := by
  have hmem := (prune_join_mem (inv_keys_ne_nil h) (inv_keys_sorted h)).mp hc
  obtain ⟨hlen, hch, helem⟩ := join_facts (inv_keys_ne_nil h) (inv_keys_sorted h)
    (inv_keys_len h) (inv_keys_chain h) hmem.1
  refine ⟨hlen, hch, ?_, hmem.2⟩
  intro e he
  obtain ⟨y, hy, hey⟩ := helem e he
  obtain ⟨p, hp, hpe⟩ := List.mem_map.mp hy
  exact (h.2.1 p hp).2.2 e (hpe ▸ hey)

theorem levelCk_nodup {A : List α} {ℓ : ℕ} {prev : List (List α × ℕ)}
    (h : LevelInv A ℓ prev) : (levelCk prev).Nodup := by
  unfold levelCk prune_step
  exact (join_nodup (inv_keys_ne_nil h) (inv_keys_sorted h) (inv_keys_len h)).filter _

theorem candCounts_mem {ts : List (List α)} {mask : ℕ → Bool}
    {Ck : List (List α)} {p : List α × ℕ} :
    p ∈ candCounts ts mask Ck ↔
      p.1 ∈ Ck ∧ p.2 = Ck.count p.1 * activeRows ts mask p.1 ∧ p.2 ≠ 0 := by
  unfold candCounts
  rw [List.mem_filterMap]
  constructor
  · rintro ⟨c, hc, hfc⟩
    by_cases hz : Ck.count c * activeRows ts mask c = 0
    · rw [if_pos hz] at hfc
      exact absurd hfc (by simp)
    · rw [if_neg hz] at hfc
      have hpe : p = (c, Ck.count c * activeRows ts mask c) := (Option.some_inj.mp hfc).symm
      subst hpe
      exact ⟨List.mem_dedup.mp hc, rfl, hz⟩
  · rintro ⟨h1, h2, h3⟩
    refine ⟨p.1, List.mem_dedup.mpr h1, ?_⟩
    rw [if_neg (h2 ▸ h3)]
    rw [Option.some_inj]
    exact Prod.ext_iff.mpr ⟨rfl, h2.symm⟩

theorem candCounts_keys_ne (ts : List (List α)) (mask : ℕ → Bool)
    (Ck : List (List α)) :
    (candCounts ts mask Ck).Pairwise (fun p q => p.1 ≠ q.1) := by
  unfold candCounts
  rw [List.pairwise_filterMap]
  have hnd : Ck.dedup.Pairwise (fun a b => a ≠ b) := Ck.nodup_dedup
  refine hnd.imp ?_
  intro a b hab x hx y hy
  have hxa : x.1 = a := by
    by_cases hz : Ck.count a * activeRows ts mask a = 0
    · rw [if_pos hz] at hx
      exact absurd hx (by simp)
    · rw [if_neg hz] at hx
      have hxe : (a, Ck.count a * activeRows ts mask a) = x :=
        Option.some_inj.mp (Option.mem_def.mp hx)
      rw [← hxe]
  have hyb : y.1 = b := by
    by_cases hz : Ck.count b * activeRows ts mask b = 0
    · rw [if_pos hz] at hy
      exact absurd hy (by simp)
    · rw [if_neg hz] at hy
      have hye : (b, Ck.count b * activeRows ts mask b) = y :=
        Option.some_inj.mp (Option.mem_def.mp hy)
      rw [← hye]
  rw [hxa, hyb]
  exact hab

/-- The advanced level keeps the invariant with key length one larger. -/
theorem step_inv (ts : List (List α)) (sup : ℕ → Bool) {A : List α} {ℓ : ℕ}
    {prev : List (List α × ℕ)} {mask : ℕ → Bool} (h : LevelInv A ℓ prev) :
    LevelInv A (ℓ + 1) (sortLevel (levelCounted ts mask sup prev)) := by
  refine ⟨Nat.le_add_left 1 ℓ, ?_, ?_⟩
  · intro p hp
    have hp2 : p ∈ levelCounted ts mask sup prev := (sortLevel_perm _).subset hp
    have hp3 : p ∈ candCounts ts mask (levelCk prev) := (List.mem_filter.mp hp2).1
    have hp4 : p.1 ∈ levelCk prev := (candCounts_mem.mp hp3).1
    obtain ⟨h1, h2, h3, _⟩ := levelCk_facts h hp4
    exact ⟨h1, h2, h3⟩
  · apply sortLevel_strict
    exact (candCounts_keys_ne ts mask (levelCk prev)).filter _

/-! ## Counting facts -/

theorem isSub_mono {T S t : List α} (hTS : ∀ e ∈ T, e ∈ S)
    (h : isSub S t = true) : isSub T t = true := by
  unfold isSub at h ⊢
  rw [List.all_eq_true] at h ⊢
  intro a ha
  exact h a (hTS a ha)

theorem activeRows_mono_mask {ts : List (List α)} {m1 m2 : ℕ → Bool}
    (h : ∀ r, m1 r = true → m2 r = true) (c : List α) :
    activeRows ts m1 c ≤ activeRows ts m2 c := by
  unfold activeRows
  rw [← List.countP_eq_length_filter, ← List.countP_eq_length_filter]
  apply List.countP_mono_left
  intro rt _ hrt
  rw [Bool.and_eq_true] at hrt ⊢
  exact ⟨h _ hrt.1, hrt.2⟩

theorem activeRows_anti_sub {ts : List (List α)} {mask : ℕ → Bool} {T S : List α}
    (hTS : ∀ e ∈ T, e ∈ S) : activeRows ts mask S ≤ activeRows ts mask T := by
  unfold activeRows
  rw [← List.countP_eq_length_filter, ← List.countP_eq_length_filter]
  apply List.countP_mono_left
  intro rt _ hrt
  rw [Bool.and_eq_true] at hrt ⊢
  exact ⟨hrt.1, isSub_mono hTS hrt.2⟩

theorem activeRows_le_filter (ts : List (List α)) (mask : ℕ → Bool) (c : List α) :
    activeRows ts mask c ≤ (ts.filter (fun t => isSub c t)).length := by
  unfold activeRows
  have h1 : (ts.enum.filter (fun rt => mask rt.1 && isSub c rt.2)).length ≤
      (ts.enum.filter (fun rt : ℕ × List α => isSub c rt.2)).length := by
    rw [← List.countP_eq_length_filter, ← List.countP_eq_length_filter]
    apply List.countP_mono_left
    intro rt _ hrt
    rw [Bool.and_eq_true] at hrt
    exact hrt.2
  have h2 : ts.filter (fun t => isSub c t) =
      (ts.enum.filter (fun rt : ℕ × List α => isSub c rt.2)).map Prod.snd := by
    conv_lhs => rw [← List.enum_map_snd ts]
    rw [List.filter_map]
    rfl
  rw [h2, List.length_map]
  exact h1

theorem filter_sub_singleton_le_count (ts : List (List α)) (a : α) :
    (ts.filter (fun t => isSub [a] t)).length ≤ ts.flatten.count a := by
  induction ts with
  | nil => simp
  | cons t ts ih =>
      rw [show (t :: ts).flatten = t ++ ts.flatten from rfl, List.count_append,
        List.filter_cons]
      rcases Bool.eq_false_or_eq_true (isSub [a] t) with h | h
      · rw [if_pos h, List.length_cons]
        have ha : a ∈ t := by
          unfold isSub at h
          rw [List.all_eq_true] at h
          exact of_decide_eq_true (h a (List.mem_singleton_self a))
        have hc : 0 < t.count a := List.count_pos_iff.mpr ha
        omega
      · rw [if_neg (by rw [h]; exact Bool.false_ne_true)]
        omega

theorem large_one_mem {ts : List (List α)} {sup : ℕ → Bool} {p : List α × ℕ}
    (hp : p ∈ large_one ts sup) :
    ∃ a, p = ([a], ts.flatten.count a) ∧ a ∈ ts.flatten.dedup ∧
      sup (ts.flatten.count a) = true := by
  simp only [large_one] at hp
  obtain ⟨ic, hic, he⟩ := List.mem_map.mp hp
  have hic2 := (List.perm_insertionSort _ _).subset hic
  obtain ⟨hicC, hsup⟩ := List.mem_filter.mp hic2
  simp only [itemCounts] at hicC
  obtain ⟨a, ha, he2⟩ := List.mem_map.mp hicC
  subst he2
  subst he
  exact ⟨a, rfl, ha, hsup⟩

theorem large_one_inv (ts : List (List α)) (sup : ℕ → Bool) :
    LevelInv ts.flatten.dedup 1 (large_one ts sup) := by
  refine ⟨le_rfl, ?_, large_one_strict ts sup⟩
  intro p hp
  obtain ⟨a, h1, ha, _⟩ := large_one_mem hp
  rw [h1]
  exact ⟨rfl, List.pairwise_singleton _ _, fun e he => by
    rw [List.mem_singleton.mp he]; exact ha⟩

/-- Count-link invariant joining the current row-usage mask to the most
recently installed level: the rows still active never exceed the stored
support count of any key. -/
def CntInv (ts : List (List α)) (mask : ℕ → Bool)
    (lvl : List (List α × ℕ)) : Prop :=
  ∀ p ∈ lvl, activeRows ts mask p.1 ≤ p.2

theorem cnt_base (ts : List (List α)) (sup : ℕ → Bool) :
    CntInv ts (fun _ => true) (large_one ts sup) := by
  intro p hp
  obtain ⟨a, h1, _, _⟩ := large_one_mem hp
  rw [h1]
  exact le_trans (activeRows_le_filter ts _ [a]) (filter_sub_singleton_le_count ts a)

theorem updateMask_le (ts : List (List α)) (Ck : List (List α)) (mask : ℕ → Bool) :
    ∀ r, updateMask ts Ck mask r = true → mask r = true := by
  intro r h
  unfold updateMask at h
  cases hg : ts.get? r with
  | none => rw [hg] at h; exact h
  | some t =>
      rw [hg] at h
      rw [Bool.and_eq_true] at h
      exact h.1

theorem count_eq_one_of_nodup_mem {l : List (List α)} (hnd : l.Nodup)
    {a : List α} (ha : a ∈ l) : l.count a = 1 := by
  induction l with
  | nil => exact absurd ha (List.not_mem_nil a)
  | cons x xs ih =>
      rcases List.mem_cons.mp ha with h | h
      · subst h
        have hnx : a ∉ xs := (List.nodup_cons.mp hnd).1
        rw [List.count_cons_self, List.count_eq_zero.mpr hnx]
      · have hne : a ≠ x := by
          intro he
          exact (List.nodup_cons.mp hnd).1 (he ▸ h)
        rw [List.count_cons_of_ne hne]
        exact ih (List.nodup_cons.mp hnd).2 h

theorem counted_count (ts : List (List α)) (sup : ℕ → Bool) {A : List α} {ℓ : ℕ}
    {prev : List (List α × ℕ)} {mask : ℕ → Bool} (h : LevelInv A ℓ prev)
    {S : List α} {c : ℕ}
    (hSc : (S, c) ∈ sortLevel (levelCounted ts mask sup prev)) :
    S ∈ levelCk prev ∧ c = activeRows ts mask S := by
  have h2 : (S, c) ∈ levelCounted ts mask sup prev := (sortLevel_perm _).subset hSc
  have h3 := (List.mem_filter.mp h2).1
  have h4 := candCounts_mem.mp h3
  have hone : (levelCk prev).count S = 1 :=
    count_eq_one_of_nodup_mem (levelCk_nodup h) h4.1
  refine ⟨h4.1, ?_⟩
  have h5 := h4.2.1
  rw [hone, one_mul] at h5
  exact h5

/-- The downward-closure relation between two consecutive levels: every
one-item-removed subset of an upper key is a lower key with at least the
upper count. -/
def DCpair (lower upper : List (List α × ℕ)) : Prop :=
  ∀ S c, (S, c) ∈ upper → ∀ i < S.length,
    ∃ c2, (removedAt S i, c2) ∈ lower ∧ c ≤ c2

theorem step_dc (ts : List (List α)) (sup : ℕ → Bool) {A : List α} {ℓ : ℕ}
    {prev : List (List α × ℕ)} {mask : ℕ → Bool} (hinv : LevelInv A ℓ prev)
    (hcnt : CntInv ts mask prev) :
    DCpair prev (sortLevel (levelCounted ts mask sup prev)) := by
  intro S c hSc i hi
  obtain ⟨hCk, hc⟩ := counted_count ts sup hinv hSc
  obtain ⟨_, _, _, hrem⟩ := levelCk_facts hinv hCk
  obtain ⟨p, hp, hpe⟩ := List.mem_map.mp (hrem i hi)
  refine ⟨p.2, ?_, ?_⟩
  · rw [← hpe, Prod.mk.eta]
    exact hp
  · rw [hc]
    calc activeRows ts mask S ≤ activeRows ts mask (removedAt S i) :=
          activeRows_anti_sub (removedAt_subset S i)
      _ = activeRows ts mask p.1 := by rw [hpe]
      _ ≤ p.2 := hcnt p hp

theorem step_cnt (ts : List (List α)) (sup : ℕ → Bool) {A : List α} {ℓ : ℕ}
    {prev : List (List α × ℕ)} {mask : ℕ → Bool} (hinv : LevelInv A ℓ prev) :
    CntInv ts (updateMask ts (levelCk prev) mask)
      (sortLevel (levelCounted ts mask sup prev)) := by
  intro p hp
  have hp2 : (p.1, p.2) ∈ sortLevel (levelCounted ts mask sup prev) := by
    rw [Prod.mk.eta]
    exact hp
  obtain ⟨_, hc⟩ := counted_count ts sup hinv hp2
  rw [hc]
  exact activeRows_mono_mask (updateMask_le ts (levelCk prev) mask) p.1

theorem chain_get {β : Type} {R : β → β → Prop} {a : β} {l : List β}
    (h : List.Chain R a l) :
    ∀ k (hk : k + 1 < (a :: l).length),
      R ((a :: l).get ⟨k, by omega⟩) ((a :: l).get ⟨k + 1, hk⟩) := by
  induction h with
  | nil =>
      intro k hk
      simp at hk
  | cons hR hch ih =>
      intro k hk
      cases k with
      | zero => exact hR
      | succ k => exact ih k (by simpa using hk)

/-- Along the loop, consecutive levels are linked by downward closure. -/
theorem loop_dc (ts : List (List α)) (sup : ℕ → Bool) :
    ∀ (fuel : ℕ) {A : List α} {ℓ : ℕ} {prev : List (List α × ℕ)}
      {mask : ℕ → Bool}, LevelInv A ℓ prev → CntInv ts mask prev →
      List.Chain DCpair prev (apriori_loop ts sup fuel prev mask) := by
  intro fuel
  induction fuel with
  | zero =>
      intro A ℓ prev mask _ _
      exact List.Chain.nil
  | succ fuel ih =>
      intro A ℓ prev mask hinv hcnt
      rw [apriori_loop_succ]
      by_cases h1 : prev.isEmpty
      · rw [if_pos h1]
        exact List.Chain.nil
      · rw [if_neg h1]
        by_cases h2 : (levelCounted ts mask sup prev).isEmpty
        · rw [if_pos h2]
          exact List.Chain.nil
        · rw [if_neg h2]
          exact List.Chain.cons (step_dc ts sup hinv hcnt)
            (ih (step_inv ts sup hinv) (step_cnt ts sup hinv))

theorem itemsets_ok_inv {input : TransactionsInput α} {sin : SupportInput}
    {levels : List (List (List α × ℕ))} {N : ℕ}
    (h : itemsets_from_transactions input sin = .ok (levels, N)) :
    ∃ ts s, normalizeTransactions input = .ok ts ∧ checkSupport sin = .ok s ∧
      mineCore ts s = (levels, N) := by
  unfold itemsets_from_transactions at h
  cases hn : normalizeTransactions input with
  | error e =>
      rw [hn] at h
      exact absurd h (by simp)
  | ok ts =>
      rw [hn] at h
      cases hc : checkSupport sin with
      | error e =>
          rw [hc] at h
          exact absurd h (by simp)
      | ok s =>
          rw [hc] at h
          exact ⟨ts, s, rfl, rfl, Except.ok.inj h⟩

theorem mineWith_levels {fuel : ℕ} {ts : List (List α)} {sup : ℕ → Bool}
    {levels : List (List (List α × ℕ))} {N : ℕ}
    (h : mineWith fuel ts sup = (levels, N)) :
    levels = [] ∨
      levels = large_one ts sup ::
        apriori_loop ts sup fuel (large_one ts sup) (fun _ => true) := by
  unfold mineWith at h
  by_cases he : (large_one ts sup).isEmpty
  · rw [if_pos he] at h
    exact Or.inl (congrArg Prod.fst h).symm
  · rw [if_neg he] at h
    exact Or.inr (congrArg Prod.fst h).symm

/-- C2: in any successful run, every key `S` of level `k` (`k > 1`,
position `k - 1` of the returned list) with count `c` has each of its
one-item-removed subsets present as a key of level `k - 1` with a count of
at least `c`. -/
theorem claim_C2 {input : TransactionsInput α} {sin : SupportInput}
    {levels : List (List (List α × ℕ))} {N : ℕ}
    (h : itemsets_from_transactions input sin = .ok (levels, N))
    (k : ℕ) (hk1 : 1 ≤ k) (hk : k < levels.length) (S : List α) (c : ℕ)
    (hS : (S, c) ∈ levels.get ⟨k, hk⟩) (i : ℕ) (hi : i < S.length) :
    ∃ c2, (removedAt S i, c2) ∈
      levels.get ⟨k - 1, lt_of_le_of_lt (Nat.sub_le k 1) hk⟩ ∧ c ≤ c2 := by
  obtain ⟨ts, s, hn, hc, hm⟩ := itemsets_ok_inv h
  have hm2 : mineWith (numDistinctItems ts + 1) ts
      (fun c => supOK s ts.length c) = (levels, N) := hm
  rcases mineWith_levels hm2 with he | he
  · rw [he] at hk
    exact absurd hk (by simp)
  · subst he
    set L1 := large_one ts (fun c => supOK s ts.length c) with hL1
    set rest := apriori_loop ts (fun c => supOK s ts.length c)
      (numDistinctItems ts + 1) L1 (fun _ => true) with hrest
    have hchain : List.Chain DCpair L1 rest :=
      loop_dc ts (fun c => supOK s ts.length c) (numDistinctItems ts + 1)
        (large_one_inv ts (fun c => supOK s ts.length c))
        (cnt_base ts (fun c => supOK s ts.length c))
    have hcons := chain_get hchain (k - 1) (by omega)
    have hget : (L1 :: rest).get ⟨k - 1 + 1, by omega⟩ = (L1 :: rest).get ⟨k, hk⟩ := by
      apply congrArg
      apply Fin.ext
      show k - 1 + 1 = k
      omega
    have hS2 : (S, c) ∈ (L1 :: rest).get ⟨k - 1 + 1, by omega⟩ := by
      rw [hget]
      exact hS
    exact hcons S c hS2 i hi

theorem claim_C2_witness :
    ∃ c2, (removedAt [2, 3, 5] 0, c2) ∈
      [([1, 3], 2), ([2, 3], 2), ([2, 5], 3), ([3, 5], 2)] ∧ 2 ≤ c2 :=
  claim_C2 example_run 2 (by decide) (by decide) [2, 3, 5] 2 (by decide)
    0 (by decide)

/-! ## Termination: the loop stabilizes once key length reaches the alphabet size -/

theorem inv_key_len_le {A : List α} {ℓ : ℕ} {prev : List (List α × ℕ)}
    (hA : A.Nodup) (h : LevelInv A ℓ prev) {p : List α × ℕ} (hp : p ∈ prev) :
    ℓ ≤ A.length := by
  obtain ⟨hlen, hch, hsub⟩ := h.2.1 p hp
  have hnd : p.1.Nodup := hch.imp ne_of_lt
  have h1 : p.1.toFinset.card = p.1.length := List.toFinset_card_of_nodup hnd
  have h2 : p.1.toFinset ⊆ A.toFinset := by
    intro e he
    rw [List.mem_toFinset] at he ⊢
    exact hsub e he
  have h3 := Finset.card_le_card h2
  have h4 : A.toFinset.card = A.length := List.toFinset_card_of_nodup hA
  omega

theorem prev_nil_of_big {A : List α} {ℓ : ℕ} {prev : List (List α × ℕ)}
    (hA : A.Nodup) (h : LevelInv A ℓ prev) (hbig : A.length < ℓ) : prev = [] := by
  rw [List.eq_nil_iff_forall_not_mem]
  intro p hp
  exact absurd (inv_key_len_le hA h hp) (by omega)

theorem counted_nil_of_full (ts : List (List α)) (mask : ℕ → Bool)
    (sup : ℕ → Bool) {A : List α} {ℓ : ℕ} {prev : List (List α × ℕ)}
    (hA : A.Nodup) (h : LevelInv A ℓ prev) (hbig : A.length ≤ ℓ) :
    levelCounted ts mask sup prev = [] := by
  have hCk : levelCk prev = [] := by
    rw [List.eq_nil_iff_forall_not_mem]
    intro c hc
    obtain ⟨hlen, hch, hsub, _⟩ := levelCk_facts h hc
    have hnd : c.Nodup := hch.imp ne_of_lt
    have h1 : c.toFinset.card = c.length := List.toFinset_card_of_nodup hnd
    have h2 : c.toFinset ⊆ A.toFinset := by
      intro e he
      rw [List.mem_toFinset] at he ⊢
      exact hsub e he
    have h3 := Finset.card_le_card h2
    have h4 : A.toFinset.card = A.length := List.toFinset_card_of_nodup hA
    omega
  unfold levelCounted
  rw [hCk]
  rfl

theorem loop_stab_succ (ts : List (List α)) (sup : ℕ → Bool) :
    ∀ (fuel : ℕ) {A : List α} {ℓ : ℕ} {prev : List (List α × ℕ)}
      {mask : ℕ → Bool}, A.Nodup → LevelInv A ℓ prev →
      A.length + 1 ≤ ℓ + fuel →
      apriori_loop ts sup (fuel + 1) prev mask =
        apriori_loop ts sup fuel prev mask := by
  intro fuel
  induction fuel with
  | zero =>
      intro A ℓ prev mask hA hinv hb
      have hp : prev = [] := prev_nil_of_big hA hinv (by omega)
      subst hp
      rfl
  | succ f ih =>
      intro A ℓ prev mask hA hinv hb
      conv_lhs => rw [apriori_loop_succ ts sup (f + 1)]
      conv_rhs => rw [apriori_loop_succ ts sup f]
      by_cases h1 : prev.isEmpty
      · rw [if_pos h1, if_pos h1]
      · rw [if_neg h1, if_neg h1]
        by_cases h2 : (levelCounted ts mask sup prev).isEmpty
        · rw [if_pos h2, if_pos h2]
        · rw [if_neg h2, if_neg h2]
          congr 1
          exact ih hA (step_inv ts sup hinv) (by omega)

theorem loop_stab (ts : List (List α)) (sup : ℕ → Bool) :
    ∀ (d : ℕ) {A : List α} {ℓ : ℕ} {prev : List (List α × ℕ)}
      {mask : ℕ → Bool} (fuel : ℕ), A.Nodup → LevelInv A ℓ prev →
      A.length + 1 ≤ ℓ + fuel →
      apriori_loop ts sup (fuel + d) prev mask =
        apriori_loop ts sup fuel prev mask := by
  intro d
  induction d with
  | zero =>
      intro A ℓ prev mask fuel _ _ _
      rfl
  | succ d ih =>
      intro A ℓ prev mask fuel hA hinv hb
      rw [show fuel + (d + 1) = (fuel + d) + 1 from by omega,
        loop_stab_succ ts sup (fuel + d) hA hinv (by omega)]
      exact ih fuel hA hinv hb

theorem mineCoreF_stab {ts : List (List α)} {s : ℚ} {fuel : ℕ}
    (hf : numDistinctItems ts + 1 ≤ fuel) :
    mineCoreF fuel ts s = mineCore ts s := by
  show mineWith fuel ts (fun c => supOK s ts.length c) =
    mineWith (numDistinctItems ts + 1) ts (fun c => supOK s ts.length c)
  unfold mineWith
  by_cases he : (large_one ts (fun c => supOK s ts.length c)).isEmpty
  · rw [if_pos he, if_pos he]
  · rw [if_neg he, if_neg he]
    have hloop : apriori_loop ts (fun c => supOK s ts.length c) fuel
        (large_one ts (fun c => supOK s ts.length c)) (fun _ => true) =
      apriori_loop ts (fun c => supOK s ts.length c) (numDistinctItems ts + 1)
        (large_one ts (fun c => supOK s ts.length c)) (fun _ => true) := by
      conv_lhs => rw [show fuel = (numDistinctItems ts + 1) +
        (fuel - (numDistinctItems ts + 1)) from by omega]
      apply loop_stab ts (fun c => supOK s ts.length c) _ (numDistinctItems ts + 1)
        (List.nodup_dedup ts.flatten) (large_one_inv ts (fun c => supOK s ts.length c))
      show ts.flatten.dedup.length + 1 ≤ 1 + (ts.flatten.dedup.length + 1)
      omega
    rw [hloop]

/-- Shape of the loop output: the level stored at position `j` is non-empty
and its keys have length `ℓ + 1 + j`. -/
theorem loop_shape (ts : List (List α)) (sup : ℕ → Bool) :
    ∀ (fuel : ℕ) {A : List α} {ℓ : ℕ} {prev : List (List α × ℕ)}
      {mask : ℕ → Bool}, LevelInv A ℓ prev →
      ∀ j lvl, (apriori_loop ts sup fuel prev mask).get? j = some lvl →
        (∀ p ∈ lvl, p.1.length = ℓ + 1 + j) ∧ lvl ≠ [] := by
  intro fuel
  induction fuel with
  | zero =>
      intro A ℓ prev mask _ j lvl hj
      exact absurd hj (by simp [apriori_loop])
  | succ fuel ih =>
      intro A ℓ prev mask hinv j lvl hj
      rw [apriori_loop_succ] at hj
      by_cases h1 : prev.isEmpty
      · rw [if_pos h1] at hj
        exact absurd hj (by simp)
      · rw [if_neg h1] at hj
        by_cases h2 : (levelCounted ts mask sup prev).isEmpty
        · rw [if_pos h2] at hj
          exact absurd hj (by simp)
        · rw [if_neg h2] at hj
          cases j with
          | zero =>
              rw [List.get?_cons_zero] at hj
              have hlvl : lvl = sortLevel (levelCounted ts mask sup prev) :=
                (Option.some_inj.mp hj).symm
              subst hlvl
              constructor
              · intro p hp
                have h3 := (step_inv ts sup hinv).2.1 p hp
                omega
              · intro hnil
                have hperm := sortLevel_perm (levelCounted ts mask sup prev)
                rw [hnil] at hperm
                have h4 : levelCounted ts mask sup prev = [] :=
                  (List.perm_nil.mp hperm.symm)
                rw [h4] at h2
                exact h2 rfl
          | succ j =>
              rw [List.get?_cons_succ] at hj
              have h3 := ih (step_inv ts sup hinv) j lvl hj
              constructor
              · intro p hp
                have h4 := h3.1 p hp
                omega
              · exact h3.2

/-- Length of the loop output: levels keep growing in key length, which is
bounded by the alphabet size. -/
theorem loop_len (ts : List (List α)) (sup : ℕ → Bool) :
    ∀ (fuel : ℕ) {A : List α} {ℓ : ℕ} {prev : List (List α × ℕ)}
      {mask : ℕ → Bool}, A.Nodup → LevelInv A ℓ prev →
      (apriori_loop ts sup fuel prev mask).length = 0 ∨
        ℓ + (apriori_loop ts sup fuel prev mask).length ≤ A.length := by
  intro fuel
  induction fuel with
  | zero =>
      intro A ℓ prev mask _ _
      exact Or.inl rfl
  | succ fuel ih =>
      intro A ℓ prev mask hA hinv
      rw [apriori_loop_succ]
      by_cases h1 : prev.isEmpty
      · rw [if_pos h1]
        exact Or.inl rfl
      · rw [if_neg h1]
        by_cases h2 : (levelCounted ts mask sup prev).isEmpty
        · rw [if_pos h2]
          exact Or.inl rfl
        · rw [if_neg h2]
          right
          have hnew : sortLevel (levelCounted ts mask sup prev) ≠ [] := by
            intro hnil
            have hperm := sortLevel_perm (levelCounted ts mask sup prev)
            rw [hnil] at hperm
            have h4 : levelCounted ts mask sup prev = [] :=
              (List.perm_nil.mp hperm.symm)
            rw [h4] at h2
            exact h2 rfl
          obtain ⟨p, hp⟩ := List.exists_mem_of_ne_nil _ hnew
          have hle : ℓ + 1 ≤ A.length :=
            inv_key_len_le hA (step_inv ts sup hinv) hp
          rcases ih hA (step_inv ts sup hinv) with h3 | h3
          · rw [List.length_cons, h3]
            omega
          · rw [List.length_cons]
            omega

/-- C5: mining is total and deterministic — the fuel-indexed while-loop has
already stabilized at `numDistinctItems + 1` iterations (any larger fuel
gives the same result), itemset length grows by one per level, and the
number of levels is bounded by the number of distinct items. -/
theorem claim_C5 :
    (∀ (fuel : ℕ) (input : TransactionsInput α) (sin : SupportInput),
      (∀ ts, normalizeTransactions input = .ok ts →
        numDistinctItems ts + 1 ≤ fuel) →
      itemsets_from_transactionsF fuel input sin =
        itemsets_from_transactions input sin) ∧
    (∀ (input : TransactionsInput α) (sin : SupportInput) levels N,
      itemsets_from_transactions input sin = .ok (levels, N) →
      (∀ j lvl, levels.get? j = some lvl →
        (∀ p ∈ lvl, p.1.length = j + 1) ∧ lvl ≠ []) ∧
      (∀ ts, normalizeTransactions input = .ok ts →
        levels.length ≤ numDistinctItems ts)) := by
  constructor
  · intro fuel input sin hf
    unfold itemsets_from_transactionsF itemsets_from_transactions
    cases hn : normalizeTransactions input with
    | error e => rfl
    | ok ts =>
        cases hc : checkSupport sin with
        | error e => rfl
        | ok s =>
            show Except.ok (mineCoreF fuel ts s) = Except.ok (mineCore ts s)
            rw [mineCoreF_stab (hf ts hn)]
  · intro input sin levels N h
    obtain ⟨ts, s, hn, hc, hm⟩ := itemsets_ok_inv h
    have hm2 : mineWith (numDistinctItems ts + 1) ts
        (fun c => supOK s ts.length c) = (levels, N) := hm
    unfold mineWith at hm2
    by_cases he : (large_one ts (fun c => supOK s ts.length c)).isEmpty
    · rw [if_pos he] at hm2
      have hlev : levels = [] := (congrArg Prod.fst hm2).symm
      subst hlev
      constructor
      · intro j lvl hj
        exact absurd hj (by simp)
      · intro ts2 _
        simp
    · rw [if_neg he] at hm2
      have hlev : levels = large_one ts (fun c => supOK s ts.length c) ::
          apriori_loop ts (fun c => supOK s ts.length c) (numDistinctItems ts + 1)
            (large_one ts (fun c => supOK s ts.length c)) (fun _ => true) :=
        (congrArg Prod.fst hm2).symm
      subst hlev
      have hinv := large_one_inv ts (fun c => supOK s ts.length c)
      constructor
      · intro j lvl hj
        cases j with
        | zero =>
            rw [List.get?_cons_zero] at hj
            have hlvl : lvl = large_one ts (fun c => supOK s ts.length c) :=
              (Option.some_inj.mp hj).symm
            subst hlvl
            constructor
            · intro p hp
              exact (hinv.2.1 p hp).1
            · intro hnil
              rw [hnil] at he
              exact he rfl
        | succ j =>
            rw [List.get?_cons_succ] at hj
            have h3 := loop_shape ts (fun c => supOK s ts.length c) _ hinv j lvl hj
            constructor
            · intro p hp
              have h4 := h3.1 p hp
              omega
            · exact h3.2
      · intro ts2 hn2
        have hts : ts2 = ts := by
          rw [hn] at hn2
          exact (Except.ok.inj hn2).symm
        subst hts
        obtain ⟨p, hp⟩ := List.exists_mem_of_ne_nil
          (large_one ts2 (fun c => supOK s ts2.length c))
          (fun hnil => he (by rw [hnil]; rfl))
        have h1 : 1 ≤ ts2.flatten.dedup.length :=
          inv_key_len_le (List.nodup_dedup ts2.flatten) hinv hp
        rcases loop_len ts2 (fun c => supOK s ts2.length c) (numDistinctItems ts2 + 1)
          (List.nodup_dedup ts2.flatten) hinv with h3 | h3
        · rw [List.length_cons, h3]
          exact h1
        · rw [List.length_cons]
          show _ + 1 ≤ ts2.flatten.dedup.length
          omega

theorem claim_C5_witness :
    itemsets_from_transactionsF 6
        (.iterable [[1, 3, 4], [2, 3, 5], [1, 2, 3, 5], [2, 5]]) (.num (2 / 5)) =
      itemsets_from_transactions
        (.iterable [[1, 3, 4], [2, 3, 5], [1, 2, 3, 5], [2, 5]]) (.num (2 / 5)) :=
  claim_C5.1 6 _ _ (fun ts h => by rw [← Except.ok.inj h]; decide)

/-! ## The row-usage mask is a pure optimization -/

/-- Modelled from the spec: the mining loop "with the optimization
disabled" — every transaction row is counted at every level and no
row-usage mask is maintained.  It differs from `apriori_loop` only in
counting with the constant-true mask and carrying no mask state. -/
def apriori_loop_nomask (ts : List (List α)) (sup : ℕ → Bool) :
    ℕ → List (List α × ℕ) → List (List (List α × ℕ))
  | 0, _ => []
  | fuel + 1, prev =>
      if prev.isEmpty then []
      else
        let itemsets_list := prev.map Prod.fst
        let Ck := prune_step itemsets_list (join_step itemsets_list)
        let counted := (candCounts ts (fun _ => true) Ck).filter (fun ic => sup ic.2)
        if counted.isEmpty then []
        else
          sortLevel counted :: apriori_loop_nomask ts sup fuel (sortLevel counted)

/-- Modelled from the spec: `mineWith` with the row-skipping disabled. -/
def mineWith_nomask (fuel : ℕ) (ts : List (List α)) (sup : ℕ → Bool) :
    List (List (List α × ℕ)) × ℕ :=
  let num_transactions := ts.length
  let lvl1 := large_one ts sup
  if lvl1.isEmpty then ([], num_transactions)
  else (lvl1 :: apriori_loop_nomask ts sup fuel lvl1, num_transactions)

/-- Modelled from the spec: `itemsets_from_transactions` with the
row-skipping optimization disabled. -/
def itemsets_from_transactions_nomask (transactions : TransactionsInput α)
    (min_support : SupportInput) :
    Except AprioriError (List (List (List α × ℕ)) × ℕ) :=
  match normalizeTransactions transactions with
  | .error e => .error e
  | .ok ts =>
      match checkSupport min_support with
      | .error e => .error e
      | .ok s =>
          .ok (mineWith_nomask (numDistinctItems ts + 1) ts
            (fun c => supOK s ts.length c))

theorem apriori_loop_nomask_succ (ts : List (List α)) (sup : ℕ → Bool)
    (fuel : ℕ) (prev : List (List α × ℕ)) :
    apriori_loop_nomask ts sup (fuel + 1) prev =
      if prev.isEmpty then []
      else if (levelCounted ts (fun _ => true) sup prev).isEmpty then []
      else sortLevel (levelCounted ts (fun _ => true) sup prev) ::
        apriori_loop_nomask ts sup fuel
          (sortLevel (levelCounted ts (fun _ => true) sup prev)) := rfl

/-- Rows already marked inactive can never again contain any key of the
current level: the justification for skipping them. -/
def NoMatchInv (ts : List (List α)) (mask : ℕ → Bool)
    (prev : List (List α × ℕ)) : Prop :=
  ∀ r t, ts.get? r = some t → mask r = false →
    ∀ T ∈ prev.map Prod.fst, isSub T t = false

theorem mem_enum_get? {β : Type} {l : List β} {r : ℕ} {t : β}
    (h : (r, t) ∈ l.enum) : l.get? r = some t := by
  obtain ⟨h1, h2⟩ := List.mem_enum h
  rw [List.get?_eq_get h1, h2]
  rfl

theorem counted_eq_nomask (ts : List (List α)) (sup : ℕ → Bool) {A : List α}
    {ℓ : ℕ} {prev : List (List α × ℕ)} {mask : ℕ → Bool}
    (hinv : LevelInv A ℓ prev) (hnm : NoMatchInv ts mask prev) :
    levelCounted ts mask sup prev = levelCounted ts (fun _ => true) sup prev := by
  unfold levelCounted
  congr 1
  unfold candCounts
  apply List.filterMap_congr
  intro c hc
  have hc2 : c ∈ levelCk prev := List.mem_dedup.mp hc
  have har : activeRows ts mask c = activeRows ts (fun _ => true) c := by
    unfold activeRows
    congr 1
    apply List.filter_congr
    intro rt hrt
    obtain ⟨r, t⟩ := rt
    have hg : ts.get? r = some t := mem_enum_get? hrt
    rcases Bool.eq_false_or_eq_true (isSub c t) with hs | hs
    · rcases Bool.eq_false_or_eq_true (mask r) with hmr | hmr
      · rw [hmr]
      · exfalso
        obtain ⟨hlen, _, _, hrem⟩ := levelCk_facts hinv hc2
        have hT : removedAt c 0 ∈ prev.map Prod.fst := hrem 0 (by omega)
        have hf := hnm r t hg hmr (removedAt c 0) hT
        have ht := isSub_mono (removedAt_subset c 0) hs
        rw [ht] at hf
        exact Bool.noConfusion hf
    · show (mask r && isSub c t) = (true && isSub c t)
      rw [hs, Bool.and_false, Bool.and_false]
  rw [har]

theorem loop_eq_nomask (ts : List (List α)) (sup : ℕ → Bool) :
    ∀ (fuel : ℕ) {A : List α} {ℓ : ℕ} {prev : List (List α × ℕ)}
      {mask : ℕ → Bool}, LevelInv A ℓ prev → NoMatchInv ts mask prev →
      apriori_loop ts sup fuel prev mask = apriori_loop_nomask ts sup fuel prev := by
  intro fuel
  induction fuel with
  | zero =>
      intro A ℓ prev mask _ _
      rfl
  | succ fuel ih =>
      intro A ℓ prev mask hinv hnm
      rw [apriori_loop_succ, apriori_loop_nomask_succ]
      by_cases h1 : prev.isEmpty
      · rw [if_pos h1, if_pos h1]
      · rw [if_neg h1, if_neg h1]
        have hce := counted_eq_nomask ts sup hinv hnm
        rw [hce]
        by_cases h2 : (levelCounted ts (fun _ => true) sup prev).isEmpty
        · rw [if_pos h2, if_pos h2]
        · rw [if_neg h2, if_neg h2]
          congr 1
          apply ih (step_inv ts sup hinv)
          intro r t hg hm T hT
          have hTc : T ∈ levelCk prev := by
            obtain ⟨p, hp, hpe⟩ := List.mem_map.mp hT
            have hp2 : p ∈ levelCounted ts (fun _ => true) sup prev :=
              (sortLevel_perm _).subset hp
            have hp3 := (List.mem_filter.mp hp2).1
            have hp4 := (candCounts_mem.mp hp3).1
            exact hpe ▸ hp4
          unfold updateMask at hm
          rw [hg] at hm
          have hm2 : (mask r && rowMatch (levelCk prev) t) = false := hm
          rcases Bool.eq_false_or_eq_true (mask r) with hmr | hmr
          · rw [hmr, Bool.true_and] at hm2
            unfold rowMatch at hm2
            have hall := List.any_eq_false.mp hm2
            exact Bool.eq_false_iff.mpr (hall T hTc)
          · rcases Bool.eq_false_or_eq_true (isSub T t) with hs | hs
            · exfalso
              obtain ⟨hlen, _, _, hrem⟩ := levelCk_facts hinv hTc
              have hT0 : removedAt T 0 ∈ prev.map Prod.fst := hrem 0 (by omega)
              have hf := hnm r t hg hmr (removedAt T 0) hT0
              have ht := isSub_mono (removedAt_subset T 0) hs
              rw [ht] at hf
              exact Bool.noConfusion hf
            · exact hs

theorem mineWith_eq_nomask (fuel : ℕ) (ts : List (List α)) (sup : ℕ → Bool) :
    mineWith fuel ts sup = mineWith_nomask fuel ts sup := by
  unfold mineWith mineWith_nomask
  by_cases he : (large_one ts sup).isEmpty
  · rw [if_pos he, if_pos he]
  · rw [if_neg he, if_neg he]
    have h1 : apriori_loop ts sup fuel (large_one ts sup) (fun _ => true) =
        apriori_loop_nomask ts sup fuel (large_one ts sup) := by
      apply loop_eq_nomask ts sup fuel (large_one_inv ts sup)
      intro r t _ hm _ _
      exact absurd hm (by simp)
    rw [h1]

/-- C4: a row marked inactive in the row-usage mask stays inactive at every
later level (the mask update never turns an inactive row back on, and only
rows with a true mask are ever counted), and running the whole miner with
the row-skipping disabled — every row counted at every level — returns
exactly the same levels and counts for every input. -/
theorem claim_C4 :
    (∀ (ts : List (List α)) (Ck : List (List α)) (mask : ℕ → Bool) (r : ℕ),
      mask r = false → updateMask ts Ck mask r = false) ∧
    (∀ (input : TransactionsInput α) (sin : SupportInput),
      itemsets_from_transactions input sin =
        itemsets_from_transactions_nomask input sin) := by
  constructor
  · intro ts Ck mask r hm
    unfold updateMask
    cases hg : ts.get? r with
    | none => exact hm
    | some t =>
        rw [hm]
        rfl
  · intro input sin
    unfold itemsets_from_transactions itemsets_from_transactions_nomask
    cases hn : normalizeTransactions input with
    | error e => rfl
    | ok ts =>
        cases hc : checkSupport sin with
        | error e => rfl
        | ok s =>
            show Except.ok (mineCore ts s) = _
            rw [show mineCore ts s = mineWith_nomask (numDistinctItems ts + 1) ts
              (fun c => supOK s ts.length c) from mineWith_eq_nomask _ _ _]

theorem claim_C4_witness :
    updateMask [[(1 : ℕ)]] [] (fun _ => false) 0 = false ∧
      itemsets_from_transactions (.iterable [[(1 : ℕ)]]) (.num 0) =
        itemsets_from_transactions_nomask (.iterable [[(1 : ℕ)]]) (.num 0) :=
  ⟨claim_C4.1 [[1]] [] (fun _ => false) 0 rfl, claim_C4.2 _ _⟩

end Apriori
